import Mathlib

/-! Keyset paginator (`query.go`, `token.go`): a shallow embedding.

Go strings are modelled as `List Char` (`Str`); the functions of package
`strings` and `fmt` that the source calls are written out structurally so that
every definition evaluates in the kernel.  The query builder (`*gorm.DB`) is
modelled by the tree of builder calls applied to the caller's context; running
a statement (`Count`, `Find`) and the two codec libraries (`encoding/json`,
`encoding/base64`) are collaborators, passed in as `Env` and `Lib`.
-/

namespace Page

/-- A Go string, as its sequence of characters. -/
abbrev Str := List Char

/-! ## Library functions used by the source -/

/-- Auxiliary for `split`: `cur` is the segment being read, reversed. -/
def splitAux (sep : Char) : Str → Str → List Str
  | [], cur => [cur.reverse]
  | c :: cs, cur =>
    if c = sep then cur.reverse :: splitAux sep cs [] else splitAux sep cs (c :: cur)

/-- The call `strings.Split(s, sep)` for a one-character separator. -/
def split (s : Str) (sep : Char) : List Str := splitAux sep s []

/-- The call `strings.Join(parts, sep)`. -/
def join (parts : List Str) (sep : Str) : Str := sep.intercalate parts

/-- The call `strings.Contains(s, sub)`: `sub` occurs in `s` as a contiguous run. -/
def contains (s sub : Str) : Bool := s.tails.any (fun t => sub.isPrefixOf t)

/-! ## Numbers held as float64, and the text `%v` prints for them -/

/-- How many low bits of `n` do not fit in the 53 bits of a float64 significand. -/
def droppedBits : Nat → Nat → Nat
  | 0, _ => 0
  | fuel + 1, n => if n < 2 ^ 53 then 0 else droppedBits fuel (n / 2) + 1

/-- The float64 nearest to a natural number below `2 ^ 1024`, ties going to the
even significand. -/
def nearestFloat64 (n : Nat) : Nat :=
  let e := droppedBits 1024 n
  let q := n / 2 ^ e
  let r := n % 2 ^ e
  if 2 * r > 2 ^ e ∨ (2 * r = 2 ^ e ∧ q % 2 = 1) then (q + 1) * 2 ^ e else q * 2 ^ e

/-- The search for the shortest decimal that is read back as the float64 `n`:
among the decimals of `j` significant digits next to `n` (`k` is the number of
digits of `n`), the one that rounds to `n`, the nearer one if both do; if none
does, one more digit is tried. -/
def shortestFrom (n k : Nat) : Nat → Nat → Nat
  | 0, _ => n
  | fuel + 1, j =>
    let unit := 10 ^ (k - j)
    let lo := n / unit * unit
    let hi := lo + unit
    let okLo := decide (lo ≠ 0) && decide (nearestFloat64 lo = n)
    let okHi := decide (nearestFloat64 hi = n)
    if okLo && okHi then
      if n - lo < hi - n then lo
      else if hi - n < n - lo then hi
      else if lo / unit % 2 = 0 then lo else hi
    else if okLo then lo
    else if okHi then hi
    else shortestFrom n k fuel (j + 1)

/-- The shortest decimal integer that is read back as the float64 whose value
is the integer `n`.  Below `2 ^ 53` every integer is a float64 of its own. -/
def shortestDecimal (n : Nat) : Nat :=
  if n < 2 ^ 53 then n
  else shortestFrom n (Nat.toDigits 10 n).length (Nat.toDigits 10 n).length 1

/-- A run of digits without the zeros that end it. -/
def trimZeros (ds : Str) : Str := (ds.reverse.dropWhile (fun c => c == '0')).reverse

/-- The significand of the exponent layout: a point after the first digit when
more digits follow. -/
def mantissaText : Str → Str
  | d :: d1 :: rest => d :: '.' :: d1 :: rest
  | ds => ds

/-- The layout `%e` with the shortest digits `ds`, the first digit standing for
`10 ^ exp`: at least two exponent digits. -/
def expText (ds : Str) (exp : Int) : Str :=
  let e := Nat.toDigits 10 exp.natAbs
  mantissaText ds ++ ['e', if exp < 0 then '-' else '+'] ++ (if e.length < 2 then '0' :: e else e)

/-- The layout `%f` with the shortest digits `ds`, the first digit standing for
`10 ^ exp`: as many digits after the point as `ds` needs. -/
def fixedText (ds : Str) (exp : Int) : Str :=
  if exp < 0 then "0.".toList ++ List.replicate (-exp - 1).toNat '0' ++ ds
  else if ds.length ≤ exp.toNat + 1 then ds ++ List.replicate (exp.toNat + 1 - ds.length) '0'
  else ds.take (exp.toNat + 1) ++ '.' :: ds.drop (exp.toNat + 1)

/-- The verb `%v` on a float64 (`%g` with the shortest digits): the exponent
layout when the decimal exponent is below -4 or at least 6. -/
def floatText (neg : Bool) (ds : Str) (exp : Int) : Str :=
  (if neg then ['-'] else []) ++ (if exp < -4 ∨ 6 ≤ exp then expText ds exp else fixedText ds exp)

/-- A dynamically typed scalar (`any`): what a struct field holds and what a
decoded cursor maps a name to.  `num n` is a number whose value is the integer
`n`: a Go integer or a float64 in an entity, a float64 in a decoded cursor
(there `n` is a value a float64 holds).  `frac neg digits scale` is a float64
that is not an integer, named by its shortest decimal form: `digits` over
`10 ^ scale`, negated when `neg`, where `digits` does not end in 0 and
`scale` is at least 1.  `null` is the `nil` interface. -/
inductive Value where
  | str (s : Str)
  | num (n : Int)
  | bool (b : Bool)
  | null
  | frac (neg : Bool) (digits : Nat) (scale : Nat)
  deriving DecidableEq, Repr

/-- Decimal digits of an integer. -/
def intText : Int → Str
  | Int.ofNat n => Nat.toDigits 10 n
  | Int.negSucc n => '-' :: Nat.toDigits 10 (n + 1)

/-- The verb `%v` of package `fmt` on a scalar of a decoded cursor, where every
number is a float64. -/
def fmtV : Value → Str
  | .str s => s
  | .num n =>
    let ds := Nat.toDigits 10 (shortestDecimal n.natAbs)
    floatText (decide (n < 0)) (if n = 0 then ds else trimZeros ds) ((ds.length : Int) - 1)
  | .bool true => "true".toList
  | .bool false => "false".toList
  | .null => "<nil>".toList
  | .frac neg digits scale =>
    let ds := Nat.toDigits 10 digits
    floatText neg ds ((ds.length : Int) - scale - 1)

/-- A Go `map[string]any`: an association list holding each key once. -/
abbrev Cursor := List (Str × Value)

/-- The assignment `m[k] = v`. -/
def Cursor.set : Cursor → Str → Value → Cursor
  | [], k, v => [(k, v)]
  | (k0, v0) :: rest, k, v =>
    if k0 = k then (k, v) :: rest else (k0, v0) :: Cursor.set rest k v

/-- The read `m[k]`: the zero value `nil` when the key is absent. -/
def Cursor.get : Cursor → Str → Value
  | [], _ => .null
  | (k0, v0) :: rest, k => if k0 = k then v0 else Cursor.get rest k

/-- The keys of a map. -/
def Cursor.keys (m : Cursor) : List Str := m.map Prod.fst

/-- What a call can fail with.  The codes carried by the first three are the
collaborators' own error values; `indexOutOfRange` is the run-time panic of an
out-of-range slice index, `nilDereference` that of a read through a nil pointer. -/
inductive Err where
  | query (code : Nat)
  | invalidCursor (code : Nat)
  | unmarshal (code : Nat)
  | indexOutOfRange
  | nilDereference
  deriving DecidableEq, Repr

deriving instance DecidableEq for Except

/-! ## query.go: the helpers -/

/-- The map `orderMap`. -/
def orderMap : Bool → Str
  | false => "ASC".toList
  | true => "DESC".toList

/-- The map `comparableMap`. -/
def comparableMap : Bool → Str
  | false => "<".toList
  | true => ">".toList

/-- The function `getField`. -/
def getField (s : Str) : Str :=
  let temp := split s '.'
  if temp.length ≥ 2 then temp.getD 1 [] else s

/-- The function `getOrderFields`. -/
def getOrderFields (s : Str) (sequence : Str) : Str :=
  join ((split s ',').map (fun i => i ++ " ".toList ++ sequence)) ",".toList

/-- The closure `formatValue` of `getCompareValue`. -/
def formatValue : Value → Str
  | .str s => "'".toList ++ s ++ "'".toList
  | v => fmtV v

/-- The function `getCompareValue`; `fields[1]` panics when `s` has no comma. -/
def getCompareValue (s : Str) (mapp : Cursor) : Except Err Str :=
  if mapp.length = 1 then
    .ok (formatValue (mapp.get (getField s)))
  else
    match split s ',' with
    | f0 :: f1 :: _ =>
      .ok (formatValue (mapp.get (getField f0)) ++ ", ".toList ++ formatValue (mapp.get (getField f1)))
    | _ => .error .indexOutOfRange

/-- One exported field of an entity struct: the value of its `json` tag (empty
when it has none) and the value it holds. -/
structure Field where
  jsonTag : Str
  value : Value
  deriving DecidableEq, Repr

/-- An entity (`*T` for a struct type `T`): its fields in declaration order. -/
abbrev Row := List Field

/-- The loop of `getKeyValue` over the struct's fields. -/
def getKeyValueLoop (sortFields : Str) : List Field → Cursor → Cursor
  | [], res => res
  | field :: rest, res =>
    if field.jsonTag = [] then getKeyValueLoop sortFields rest res
    else
      let tagParts := split field.jsonTag ','
      let tag0 := tagParts.headD []
      if contains sortFields tag0 then
        getKeyValueLoop sortFields rest (res.set tag0 field.value)
      else getKeyValueLoop sortFields rest res

/-- The function `getKeyValue`; its `err` result is never assigned. -/
def getKeyValue (obj : Row) (sortFields : Str) : Except Err Cursor :=
  let sortFields := getField sortFields
  .ok (getKeyValueLoop sortFields obj [])

/-! ## The query builder and the collaborators -/

/-- A `*gorm.DB` value, as the builder calls that produced it.  `ctx` is the
caller's pre-filtered query context when it was built with `Table(...)`, with
the table expression, the selected columns and the join clauses its statement
holds; `model` is such a context built with `Model(...)`, whose statement has no
table expression (`Statement.TableExpr` is nil). -/
inductive DB where
  | ctx (table : Str) (selects : List Str) (joins : List Str)
  | Order (db : DB) (value : Str)
  | Limit (db : DB) (limit : Int)
  | Offset (db : DB) (offset : Int)
  | Select (db : DB) (query : Str)
  | Where (db : DB) (query : Str)
  | WhereSub (db : DB) (query : Str) (arg : DB)
  | SetJoins (db : DB) (joins : List Str)
  | Session (db : DB)
  | Table (db : DB) (name : Str)
  | model (selects : List Str) (joins : List Str)
  deriving DecidableEq, Repr

/-- The pointer `Statement.TableExpr`, as the text of its field `SQL`: `none`
when the pointer is nil. -/
def DB.tableExpr : DB → Option Str
  | .ctx table _ _ => some table
  | .Table _ name => some name
  | .Session _ => none
  | .model _ _ => none
  | .Order db _ | .Limit db _ | .Offset db _ | .Select db _ | .Where db _
  | .WhereSub db _ _ | .SetJoins db _ => db.tableExpr

/-- The field `Statement.Selects`. -/
def DB.selects : DB → List Str
  | .ctx _ selects _ => selects
  | .model selects _ => selects
  | .Select _ query => [query]
  | .Session _ => []
  | .Order db _ | .Limit db _ | .Offset db _ | .Where db _
  | .WhereSub db _ _ | .SetJoins db _ | .Table db _ => db.selects

/-- The field `Statement.Joins`. -/
def DB.joins : DB → List Str
  | .ctx _ _ joins => joins
  | .model _ joins => joins
  | .SetJoins _ joins => joins
  | .Session _ => []
  | .Order db _ | .Limit db _ | .Offset db _ | .Select db _ | .Where db _
  | .WhereSub db _ _ | .Table db _ => db.joins

/-- Running a statement: `Count` and `Find` of the query collaborator. -/
structure Env where
  count : DB → Except Err Int
  find : DB → Except Err (List Row)

/-- The two codec libraries: `json.Marshal`, `json.Unmarshal` into a
`map[string]any`, and `base64.StdEncoding`; the codes are the libraries' errors. -/
structure Lib where
  jsonMarshal : Cursor → Str
  jsonUnmarshal : Str → Except Nat Cursor
  encodeToString : Str → Str
  decodeString : Str → Except Nat Str

/-! ## token.go -/

/-- The function `EncodePageToken`. -/
def EncodePageToken (lib : Lib) (data : Cursor) : Str :=
  lib.encodeToString (lib.jsonMarshal data)

/-- The function `DecodePageToken`, at `T = map[string]any`. -/
def DecodePageToken (lib : Lib) (token : Str) : Except Err Cursor :=
  match lib.decodeString token with
  | .error code => .error (.invalidCursor code)
  | .ok decoded =>
    match lib.jsonUnmarshal decoded with
    | .error code => .error (.unmarshal code)
    | .ok res => .ok res

/-! ## query.go: the paginator -/

/-- The struct `Result`. -/
structure Result where
  Data : List Row
  Total : Int
  PrevToken : Str
  NextToken : Str
  deriving DecidableEq, Repr

/-- The struct `Paginator`. -/
structure Paginator where
  DB : DB
  Fields : Str
  Start : Int
  Limit : Int
  Sequence : Bool
  PrimaryKeys : Str
  deriving DecidableEq, Repr

/-- The constant `DefaultSortFields`. -/
def DefaultSortFields : Str := "created_at".toList

/-- The function `NewPaginator`. -/
def NewPaginator (db : DB) (start limit : Int) : Paginator :=
  { DB := db, Fields := DefaultSortFields, Sequence := true, Start := start, Limit := limit,
    PrimaryKeys := "id".toList }

/-- The call `strings.ReplaceAll(s, " ", "")`. -/
def removeSpaces (s : Str) : Str := s.filter (fun c => c != ' ')

/-- The method `SetSequence`. -/
def Paginator.SetSequence (p : Paginator) (sequence : Bool) : Paginator :=
  { p with Sequence := sequence }

/-- The method `SetFields`. -/
def Paginator.SetFields (p : Paginator) (fields : Str) : Paginator :=
  { p with Fields := removeSpaces fields }

/-- The method `SetPrimaryKeys`. -/
def Paginator.SetPrimaryKeys (p : Paginator) (keys : Str) : Paginator :=
  { p with PrimaryKeys := removeSpaces keys }

/-- The method `optimizedCount`: the count statement runs with the joins
detached; the deferred function puts them back, so the paginator is as before. -/
def Paginator.optimizedCount (env : Env) (p : Paginator) : Except Err Int :=
  let joins := p.DB.joins
  env.count (if joins ≠ [] then p.DB.SetJoins [] else p.DB)

/-- The method `getDelayedAssociationDB`.  Its first statement reads the field
`SQL` through the pointer `Statement.TableExpr` and panics when the pointer is
nil, before anything is assigned. -/
def Paginator.getDelayedAssociationDB (p : Paginator) (orderField : Str) : Except Err Page.DB :=
  match p.DB.tableExpr with
  | none => .error .nilDereference
  | some table =>
    let fields := join p.DB.selects ",".toList
    let joins := p.DB.joins
    let db := if joins.length > 0 then p.DB.SetJoins [] else p.DB
    let subQuery := (((db.Select p.PrimaryKeys).Order orderField).Offset p.Start).Limit p.Limit
    let newDB := (Page.DB.Session db).Table table
    let newDB := if joins.length > 0 then newDB.SetJoins joins else newDB
    let newDB := if fields ≠ [] then newDB.Select fields else newDB
    .ok ((newDB.WhereSub ("(".toList ++ p.PrimaryKeys ++ ") IN (?)".toList) subQuery).Order
      orderField)

/-- The format `"(%s) %s (%s)"` of the cursor branch. -/
def whereFragment (fields op values : Str) : Str :=
  "(".toList ++ fields ++ ") ".toList ++ op ++ " (".toList ++ values ++ ")".toList

/-- The `default` case of the switch in `Paginate` (the cursor scan): the
paginator it leaves behind, and the error it returns if it returns early. -/
def Paginator.cursorCase (lib : Lib) (p : Paginator) (orderField prevToken nextToken : Str) :
    Except Err Unit × Paginator :=
  let token := if prevToken ≠ [] then prevToken else nextToken
  let p := if prevToken ≠ [] then { p with Sequence := !p.Sequence } else p
  let orderField :=
    if prevToken ≠ [] then getOrderFields p.Fields (orderMap p.Sequence) else orderField
  match DecodePageToken lib token with
  | .error err => (.error err, p)
  | .ok pageData =>
    let isGt := (decide (nextToken ≠ []) && !p.Sequence) || (decide (prevToken ≠ []) && !p.Sequence)
    match getCompareValue p.Fields pageData with
    | .error err => (.error err, p)
    | .ok values =>
      (.ok (), { p with DB := ((p.DB.Where (whereFragment p.Fields (comparableMap isGt) values)).Order
        orderField).Limit p.Limit })

/-- The switch of `Paginate`: which query is built. -/
def Paginator.switchCase (lib : Lib) (p : Paginator) (orderField prevToken nextToken : Str) :
    Except Err Unit × Paginator :=
  if p.Start = 0 ∧ prevToken = [] ∧ nextToken = [] then
    (.ok (), { p with DB := (p.DB.Order orderField).Limit p.Limit })
  else if p.Start > 0 ∧ prevToken = [] ∧ nextToken = [] then
    match p.getDelayedAssociationDB orderField with
    | .error err => (.error err, p)
    | .ok db => (.ok (), { p with DB := db })
  else
    p.cursorCase lib orderField prevToken nextToken

/-- The end of `Paginate`, after a fetch of at least one row: reverse the rows
of a previous page and mint the two tokens. -/
def Paginator.mint (lib : Lib) (p : Paginator) (res : Result) (prevToken : Str) : Except Err Result :=
  let data := if prevToken ≠ [] then res.Data.reverse else res.Data
  match getKeyValue (data.headD []) p.Fields with
  | .error err => .error err
  | .ok start =>
    match getKeyValue (data.getLastD []) p.Fields with
    | .error err => .error err
    | .ok end_ =>
      .ok { res with Data := data, PrevToken := EncodePageToken lib start,
                     NextToken := EncodePageToken lib end_ }

/-- The method `Paginate`: what it returns and the paginator it leaves behind
(the receiver is a pointer, and the method assigns to its fields). -/
def Paginator.Paginate (lib : Lib) (env : Env) (p : Paginator) (prevToken nextToken : Str) :
    Except Err Result × Paginator :=
  let res : Result := { Data := [], Total := 0, PrevToken := [], NextToken := [] }
  let orderField := getOrderFields p.Fields (orderMap p.Sequence)
  match p.optimizedCount env with
  | .error err => (.error err, p)
  | .ok count =>
    if count = 0 then (.ok res, p)
    else
      let res := { res with Total := count }
      match p.switchCase lib orderField prevToken nextToken with
      | (.error err, p) => (.error err, p)
      | (.ok (), p) =>
        match env.find p.DB with
        | .error err => (.error err, p)
        | .ok data =>
          let res := { res with Data := data }
          if res.Data.length = 0 then (.ok res, p)
          else
            match p.mint lib res prevToken with
            | .error err => (.error err, p)
            | .ok res => (.ok res, p)

/-! ## A concrete codec library, for evaluating the code on examples

Standard base64 with padding over the UTF-8 bytes of a text, and JSON objects
whose members are strings, numbers, booleans or `null`, written as
`json.Marshal` writes a map (keys sorted, `<`, `>`, `&` and control characters
escaped) and read as `json.Unmarshal` reads into a `map[string]any` (a number
is stored as a float64).  Outside the model, and answered with an error: a
member that is an array or an object, and a number that is not an integer and
has more than 15 significant digits. -/

/-- The quotation mark. -/
def dquote : Char := Char.ofNat 34

/-- The reverse solidus. -/
def bslash : Char := Char.ofNat 92

/-- The base64 alphabet. -/
def b64Char (n : Nat) : Char :=
  if n < 26 then Char.ofNat (65 + n)
  else if n < 52 then Char.ofNat (71 + n)
  else if n < 62 then Char.ofNat (n - 4)
  else if n = 62 then '+' else '/'

/-- The inverse of the base64 alphabet. -/
def b64Val (c : Char) : Option Nat :=
  let n := c.toNat
  if 65 ≤ n ∧ n ≤ 90 then some (n - 65)
  else if 97 ≤ n ∧ n ≤ 122 then some (n - 71)
  else if 48 ≤ n ∧ n ≤ 57 then some (n + 4)
  else if c = '+' then some 62
  else if c = '/' then some 63
  else none

/-- Base64 of a byte sequence. -/
def b64EncodeBytes : List Nat → Str
  | [] => []
  | [a] => [b64Char (a / 4), b64Char (a % 4 * 16), '=', '=']
  | [a, b] => [b64Char (a / 4), b64Char (a % 4 * 16 + b / 16), b64Char (b % 16 * 4), '=']
  | a :: b :: c :: rest =>
    b64Char (a / 4) :: b64Char (a % 4 * 16 + b / 16) :: b64Char (b % 16 * 4 + c / 64) ::
      b64Char (c % 64) :: b64EncodeBytes rest

/-- Base64 decoding of a text without line breaks. -/
def b64DecodeChars : Str → Except Nat (List Nat)
  | [] => .ok []
  | c0 :: c1 :: c2 :: c3 :: rest =>
    match b64Val c0, b64Val c1 with
    | some v0, some v1 =>
      if c2 = '=' ∧ c3 = '=' ∧ rest = [] then .ok [v0 * 4 + v1 / 16]
      else
        match b64Val c2 with
        | none => .error 1
        | some v2 =>
          if c3 = '=' ∧ rest = [] then .ok [v0 * 4 + v1 / 16, v1 % 16 * 16 + v2 / 4]
          else
            match b64Val c3, b64DecodeChars rest with
            | some v3, .ok bytes =>
              .ok ((v0 * 4 + v1 / 16) :: (v1 % 16 * 16 + v2 / 4) :: (v2 % 4 * 64 + v3) :: bytes)
            | _, _ => .error 1
    | _, _ => .error 1
  | _ => .error 1

/-- The UTF-8 bytes of a character. -/
def utf8Bytes (c : Char) : List Nat :=
  let n := c.toNat
  if n < 128 then [n]
  else if n < 2048 then [192 + n / 64, 128 + n % 64]
  else if n < 65536 then [224 + n / 4096, 128 + n / 64 % 64, 128 + n % 64]
  else [240 + n / 262144, 128 + n / 4096 % 64, 128 + n / 64 % 64, 128 + n % 64]

/-- The character U+FFFD, which stands for a byte that is not UTF-8. -/
def replacementChar : Char := Char.ofNat 65533

/-- Whether a byte continues a UTF-8 sequence. -/
def isContinuation (b : Nat) : Bool := decide (128 ≤ b) && decide (b < 192)

/-- The first character of a UTF-8 byte sequence and the number of bytes it
takes; a byte that starts no valid sequence is read as U+FFFD. -/
def utf8Head : List Nat → Char × Nat
  | [] => (replacementChar, 1)
  | b0 :: rest =>
    if b0 < 128 then (Char.ofNat b0, 1)
    else
      match rest with
      | [] => (replacementChar, 1)
      | b1 :: r1 =>
        if 194 ≤ b0 ∧ b0 < 224 ∧ isContinuation b1 then
          (Char.ofNat ((b0 - 192) * 64 + (b1 - 128)), 2)
        else
          match r1 with
          | [] => (replacementChar, 1)
          | b2 :: r2 =>
            let cp3 := (b0 - 224) * 4096 + (b1 - 128) * 64 + (b2 - 128)
            if 224 ≤ b0 ∧ b0 < 240 ∧ isContinuation b1 ∧ isContinuation b2 ∧ 2048 ≤ cp3 ∧
                (cp3 < 55296 ∨ 57344 ≤ cp3) then
              (Char.ofNat cp3, 3)
            else
              match r2 with
              | [] => (replacementChar, 1)
              | b3 :: _ =>
                let cp4 := (b0 - 240) * 262144 + (b1 - 128) * 4096 + (b2 - 128) * 64 + (b3 - 128)
                if 240 ≤ b0 ∧ b0 < 245 ∧ isContinuation b1 ∧ isContinuation b2 ∧
                    isContinuation b3 ∧ 65536 ≤ cp4 ∧ cp4 < 1114112 then
                  (Char.ofNat cp4, 4)
                else (replacementChar, 1)

/-- The characters of a UTF-8 byte sequence; `fuel` bounds their number. -/
def utf8Chars : Nat → List Nat → Str
  | 0, _ => []
  | _ + 1, [] => []
  | fuel + 1, b :: bs =>
    (utf8Head (b :: bs)).1 :: utf8Chars fuel ((b :: bs).drop (utf8Head (b :: bs)).2)

/-- Order of two strings, byte by byte. -/
def strLt : Str → Str → Bool
  | _, [] => false
  | [], _ :: _ => true
  | a :: as, b :: bs => if a.toNat < b.toNat then true else if a = b then strLt as bs else false

/-- Insertion of a member into a list of members sorted by key. -/
def insertMember (kv : Str × Value) : Cursor → Cursor
  | [] => [kv]
  | kv0 :: rest => if strLt kv0.1 kv.1 then kv0 :: insertMember kv rest else kv :: kv0 :: rest

/-- The members of a map in the order `json.Marshal` writes them. -/
def sortMembers (m : Cursor) : Cursor := m.foldr insertMember []

/-- A hexadecimal digit, in lower case. -/
def hexDigit (n : Nat) : Char := if n < 10 then Char.ofNat (48 + n) else Char.ofNat (87 + n)

/-- The escape `\uXXXX` of a code unit. -/
def unicodeEscape (n : Nat) : Str :=
  [bslash, 'u', hexDigit (n / 4096), hexDigit (n / 256 % 16), hexDigit (n / 16 % 16),
    hexDigit (n % 16)]

/-- A character inside a JSON string literal, as `json.Marshal` writes it. -/
def jsonChar (c : Char) : Str :=
  if c = dquote ∨ c = bslash then [bslash, c]
  else if c = '\n' then [bslash, 'n']
  else if c = '\r' then [bslash, 'r']
  else if c = '\t' then [bslash, 't']
  else if c.toNat = 8 then [bslash, 'b']
  else if c.toNat = 12 then [bslash, 'f']
  else if c.toNat < 32 ∨ c = '<' ∨ c = '>' ∨ c = '&' ∨ c.toNat = 8232 ∨ c.toNat = 8233 then
    unicodeEscape c.toNat
  else [c]

/-- A JSON string literal. -/
def jsonString (s : Str) : Str := dquote :: s.flatMap jsonChar ++ [dquote]

/-- The text `json.Marshal` writes for a float64 that is not an integer, from
its shortest digits: the exponent layout below `1e-6`, with the exponent
written without padding. -/
def jsonFloatText (neg : Bool) (ds : Str) (exp : Int) : Str :=
  (if neg then ['-'] else []) ++
    (if exp < -6 then mantissaText ds ++ "e-".toList ++ Nat.toDigits 10 exp.natAbs
     else fixedText ds exp)

/-- A JSON scalar.  An integer is written with all its digits, as
`json.Marshal` writes a Go integer and a float64 below `1e21`. -/
def jsonValue : Value → Str
  | .str s => jsonString s
  | .num n => intText n
  | .bool true => "true".toList
  | .bool false => "false".toList
  | .null => "null".toList
  | .frac neg digits scale =>
    let ds := Nat.toDigits 10 digits
    jsonFloatText neg ds ((ds.length : Int) - scale - 1)

/-- The text `json.Marshal` writes for a map of scalars. -/
def jsonObject (m : Cursor) : Str :=
  "\x7b".toList ++ join ((sortMembers m).map fun kv => jsonString kv.1 ++ ":".toList ++ jsonValue kv.2)
    ",".toList ++ "\x7d".toList

/-- Skips JSON white space. -/
def skipWs : Str → Str
  | [] => []
  | c :: cs => if c = ' ' ∨ c = '\n' ∨ c = '\t' ∨ c = '\r' then skipWs cs else c :: cs

/-- The value of a hexadecimal digit. -/
def hexVal (c : Char) : Option Nat :=
  let n := c.toNat
  if 48 ≤ n ∧ n ≤ 57 then some (n - 48)
  else if 97 ≤ n ∧ n ≤ 102 then some (n - 87)
  else if 65 ≤ n ∧ n ≤ 70 then some (n - 55)
  else none

/-- Reads four hexadecimal digits. -/
def readHex4 : Str → Option (Nat × Str)
  | a :: b :: c :: d :: rest =>
    match hexVal a, hexVal b, hexVal c, hexVal d with
    | some x, some y, some z, some w => some (x * 4096 + y * 256 + z * 16 + w, rest)
    | _, _, _, _ => none
  | _ => none

/-- Reads the low half of a surrogate pair, written `\uXXXX`. -/
def readLowSurrogate : Str → Option (Nat × Str)
  | b :: u :: rest =>
    if b = bslash ∧ u = 'u' then
      match readHex4 rest with
      | some (lo, rest1) => if 56320 ≤ lo ∧ lo < 57344 then some (lo, rest1) else none
      | none => none
    else none
  | _ => none

/-- Reads a string literal after its opening quotation mark; `fuel` bounds the
number of characters read. -/
def readString : Nat → Str → Str → Option (Str × Str)
  | 0, _, _ => none
  | _ + 1, [], _ => none
  | fuel + 1, c :: cs, acc =>
    if c = dquote then some (acc.reverse, cs)
    else if c = bslash then
      match cs with
      | [] => none
      | e :: rest =>
        if e = dquote ∨ e = bslash ∨ e = '/' then readString fuel rest (e :: acc)
        else if e = 'b' then readString fuel rest (Char.ofNat 8 :: acc)
        else if e = 'f' then readString fuel rest (Char.ofNat 12 :: acc)
        else if e = 'n' then readString fuel rest ('\n' :: acc)
        else if e = 'r' then readString fuel rest ('\r' :: acc)
        else if e = 't' then readString fuel rest ('\t' :: acc)
        else if e = 'u' then
          match readHex4 rest with
          | none => none
          | some (u, rest1) =>
            if 55296 ≤ u ∧ u < 56320 then
              match readLowSurrogate rest1 with
              | some (lo, rest2) =>
                readString fuel rest2 (Char.ofNat (65536 + (u - 55296) * 1024 + (lo - 56320)) :: acc)
              | none => readString fuel rest1 (replacementChar :: acc)
            else if 56320 ≤ u ∧ u < 57344 then readString fuel rest1 (replacementChar :: acc)
            else readString fuel rest1 (Char.ofNat u :: acc)
        else none
    else if c.toNat < 32 then none
    else readString fuel cs (c :: acc)

/-- The number a run of decimal digits denotes. -/
def digitsValue (ds : Str) : Nat := ds.foldl (fun n c => 10 * n + (c.toNat - 48)) 0

/-- Reads the exponent part of a number, if there is one: its value and the rest. -/
def readExponent (s : Str) : Option (Int × Str) :=
  match s with
  | e :: t =>
    if e = 'e' ∨ e = 'E' then
      let neg := t.head? = some '-'
      let t1 := if t.head? = some '-' ∨ t.head? = some '+' then t.drop 1 else t
      let ds := t1.takeWhile Char.isDigit
      if ds = [] then none
      else some (if neg then -(digitsValue ds : Int) else (digitsValue ds : Int),
        t1.dropWhile Char.isDigit)
    else some (0, s)
  | [] => some (0, [])

/-- Reads an unsigned JSON number: its digits `d` and the power of ten `e` it is
scaled by, the number being `d * 10 ^ e`. -/
def readDecimal (s : Str) : Option ((Nat × Int) × Str) :=
  let ip := s.takeWhile Char.isDigit
  let r1 := s.dropWhile Char.isDigit
  if ip = [] ∨ (ip.length > 1 ∧ ip.head? = some '0') then none
  else
    let fp := if r1.head? = some '.' then (r1.drop 1).takeWhile Char.isDigit else []
    let r2 := if r1.head? = some '.' then (r1.drop 1).dropWhile Char.isDigit else r1
    if r1.head? = some '.' ∧ fp = [] then none
    else
      match readExponent r2 with
      | none => none
      | some (e, rest) => some ((digitsValue (ip ++ fp), e - fp.length), rest)

/-- Drops the zeros that end the digits of `d * 10 ^ e` while `e` is negative. -/
def stripZeros : Nat → Nat → Int → Nat × Int
  | 0, d, e => (d, e)
  | fuel + 1, d, e => if e < 0 ∧ d % 10 = 0 then stripZeros fuel (d / 10) (e + 1) else (d, e)

/-- The scalar a number `d * 10 ^ e` (negated when `neg`) stands for.  With
`asFloat` it is stored as a float64: an integer becomes the nearest float64
(none from `2 ^ 1024` on, which the library rejects), and a number that is not
an integer is kept when its digits are few enough to be its shortest form. -/
def decimalValue (asFloat neg : Bool) (d : Nat) (e : Int) : Option Value :=
  if d = 0 then some (.num 0)
  else
    let de := stripZeros (Nat.toDigits 10 d).length d e
    if 0 ≤ de.2 then
      if 400 < de.2 then none
      else
        let n := de.1 * 10 ^ de.2.toNat
        if asFloat then
          if n < 2 ^ 256 * 2 ^ 256 * 2 ^ 256 * 2 ^ 256 then
            some (.num (if neg then -(nearestFloat64 n : Int) else (nearestFloat64 n : Int)))
          else none
        else some (.num (if neg then -(n : Int) else (n : Int)))
    else if asFloat ∧ (15 < (Nat.toDigits 10 de.1).length ∨ de.2 < -300) then none
    else some (.frac neg de.1 (-de.2).toNat)

/-- Reads a number, with its sign. -/
def readNumber (asFloat : Bool) (s : Str) : Option (Value × Str) :=
  let neg := s.head? = some '-'
  match readDecimal (if neg then s.drop 1 else s) with
  | none => none
  | some ((d, e), rest) => (decimalValue asFloat neg d e).map fun v => (v, rest)

/-- Reads a JSON scalar; a number is stored as a float64. -/
def readValue (s : Str) : Option (Value × Str) :=
  match s with
  | [] => none
  | c :: cs =>
    if c = dquote then (readString s.length cs []).map fun r => (.str r.1, r.2)
    else if "true".toList.isPrefixOf s then some (.bool true, s.drop 4)
    else if "false".toList.isPrefixOf s then some (.bool false, s.drop 5)
    else if "null".toList.isPrefixOf s then some (.null, s.drop 4)
    else readNumber true s

/-- Reads the members of an object, from the first character of a member. -/
def readMembers : Nat → Str → Cursor → Option Cursor
  | 0, _, _ => none
  | fuel + 1, s, acc =>
    match s with
    | [] => none
    | c :: cs =>
      if c ≠ dquote then none
      else
        match readString s.length cs [] with
        | none => none
        | some (key, rest) =>
          match skipWs rest with
          | [] => none
          | colon :: rest =>
            if colon ≠ ':' then none
            else
              match readValue (skipWs rest) with
              | none => none
              | some (v, rest) =>
                match skipWs rest with
                | [] => none
                | sep :: rest =>
                  if sep = ',' then readMembers fuel (skipWs rest) (acc.set key v)
                  else if sep = '}' ∧ skipWs rest = [] then some (acc.set key v)
                  else none

/-- Decoding of a JSON text into a map of scalars. -/
def jsonObjectDecode (text : Str) : Except Nat Cursor :=
  match skipWs text with
  | [] => .error 2
  | c :: cs =>
    if "null".toList.isPrefixOf (c :: cs) ∧ skipWs (cs.drop 3) = [] then .ok []
    else if c ≠ '{' then .error 2
    else
      match skipWs cs with
      | [] => .error 2
      | d :: ds =>
        if d = '}' ∧ skipWs ds = [] then .ok []
        else
          match readMembers text.length (d :: ds) [] with
          | none => .error 2
          | some m => .ok m

/-- The Go standard library. -/
def goStd : Lib where
  jsonMarshal := jsonObject
  jsonUnmarshal := jsonObjectDecode
  encodeToString := fun s => b64EncodeBytes (s.flatMap utf8Bytes)
  decodeString := fun s =>
    match b64DecodeChars (s.filter fun c => c != '\n' && c != '\r') with
    | .error code => .error code
    | .ok bytes => .ok (utf8Chars bytes.length bytes)

/-! ## A concrete query collaborator, for evaluating the code on examples

Statements are run over a table held in memory, assembled as gorm assembles
them: the caller's context selects the rows that pass its filter (a new
session starts from the whole table), every `Where` adds a condition that the
rows must satisfy, every `Order` adds to the `ORDER BY` list, and the last
`Limit` and the last `Offset` cut the sorted rows.  A condition is a tuple
comparison `(f1,...,fn) OP (v1, ..., vm)` with `OP` one of `<`, `>`, or the
membership `(f1,...,fn) IN (?)` of the deferred join; a text outside this
grammar is answered with an error, whatever an engine would make of it.
Selected columns, table names and joins do not change the rows returned. -/

/-- The apostrophe. -/
def squote : Char := Char.ofNat 39

/-- The external name of a field: its `json` tag up to the first comma. -/
def Field.name (f : Field) : Str := (split f.jsonTag ',').headD []

/-- The value a row holds in a column, an alias qualifier of the column being dropped. -/
def columnValue (r : Row) (col : Str) : Value :=
  match r.find? (fun f => decide (f.name = (split col '.').getLastD [])) with
  | some f => f.value
  | none => .null

/-- A number as an integer over a power of ten: the numerator and the exponent
of the denominator. -/
def Value.decimal : Value → Option (Int × Nat)
  | .num n => some (n, 0)
  | .frac neg digits scale => some (if neg then -(digits : Int) else (digits : Int), scale)
  | _ => none

/-- Comparison of two scalars of the same kind. -/
def Value.cmp : Value → Value → Option Ordering
  | .str a, .str b => some (if strLt a b then .lt else if a = b then .eq else .gt)
  | .bool a, .bool b => some (if a = b then .eq else if b then .lt else .gt)
  | a, b =>
    match a.decimal, b.decimal with
    | some (m, s), some (n, t) =>
      some (if m * 10 ^ t < n * 10 ^ s then .lt else if m * 10 ^ t = n * 10 ^ s then .eq else .gt)
    | _, _ => none

/-- Row-wise (lexicographic) comparison of two tuples of the same length. -/
def tupleCmp : List Value → List Value → Option Ordering
  | [], [] => some .eq
  | a :: as, b :: bs =>
    match a.cmp b with
    | some .eq => tupleCmp as bs
    | o => o
  | _, _ => none

/-- Reads an SQL string literal after its opening apostrophe. -/
def readSqlString : Str → Str → Option (Str × Str)
  | [], _ => none
  | [c], acc => if c = squote then some (acc.reverse, []) else none
  | c :: d :: ds, acc =>
    if c = squote then
      if d = squote then readSqlString ds (squote :: acc) else some (acc.reverse, d :: ds)
    else readSqlString (d :: ds) (c :: acc)

/-- Reads an SQL literal: a string, a number, or a truth value. -/
def readSqlValue (s : Str) : Option (Value × Str) :=
  match s with
  | [] => none
  | c :: cs =>
    if c = squote then (readSqlString cs []).map fun r => (.str r.1, r.2)
    else if "true".toList.isPrefixOf s then some (.bool true, s.drop 4)
    else if "false".toList.isPrefixOf s then some (.bool false, s.drop 5)
    else readNumber false s

/-- Reads the literals of a parenthesised list, up to the closing parenthesis. -/
def readSqlValues : Nat → Str → List Value → Option (List Value)
  | 0, _, _ => none
  | fuel + 1, s, acc =>
    match readSqlValue s with
    | none => none
    | some (v, rest) =>
      match rest with
      | [] => none
      | sep :: rest =>
        if sep = ')' ∧ rest = [] then some (acc ++ [v])
        else if sep = ',' then readSqlValues fuel (rest.dropWhile (fun c => c == ' ')) (acc ++ [v])
        else none

/-- Reads a fragment `(f1,...,fn) OP (v1, ..., vm)` with `OP` one of `<`, `>`. -/
def parseWhere (q : Str) : Option (List Str × Char × List Value) :=
  match q with
  | [] => none
  | c :: rest =>
    if c ≠ '(' then none
    else
      match rest.dropWhile (fun c => c != ')') with
      | c0 :: c1 :: op :: c3 :: c4 :: vals =>
        if c0 = ')' ∧ c1 = ' ' ∧ (op = '<' ∨ op = '>') ∧ c3 = ' ' ∧ c4 = '(' then
          (readSqlValues vals.length vals []).map fun vs =>
            (split (rest.takeWhile (fun c => c != ')')) ',', op, vs)
        else none
      | _ => none

/-- Whether a row satisfies a fragment; `none` when the statement is in error. -/
def satisfies (q : Str) (r : Row) : Option Bool :=
  match parseWhere q with
  | none => none
  | some (fields, op, vals) =>
    match tupleCmp (fields.map (columnValue r)) vals with
    | none => none
    | some o => some (if op = '>' then o = .gt else o = .lt)

/-- The rows that satisfy a fragment. -/
def filterRows (q : Str) : List Row → Option (List Row)
  | [] => some []
  | r :: rs =>
    match satisfies q r, filterRows q rs with
    | some b, some out => some (if b then r :: out else out)
    | _, _ => none

/-- Reads an `ORDER BY` list `f1 DIR,...,fn DIR`: each column with whether it descends. -/
def parseOrder (value : Str) : Option (List (Str × Bool)) :=
  (split value ',').mapM fun item =>
    match split item ' ' with
    | [col, dir] =>
      if dir = "ASC".toList then some (col, false)
      else if dir = "DESC".toList then some (col, true)
      else none
    | _ => none

/-- Whether row `a` sorts strictly before row `b` under an `ORDER BY` list. -/
def rowBefore : List (Str × Bool) → Row → Row → Bool
  | [], _, _ => false
  | (col, desc) :: keys, a, b =>
    match (columnValue a col).cmp (columnValue b col) with
    | some .lt => !desc
    | some .gt => desc
    | _ => rowBefore keys a b

/-- Insertion of a row into a sorted list, before the rows it does not follow. -/
def insertRow (keys : List (Str × Bool)) (r : Row) : List Row → List Row
  | [] => [r]
  | x :: xs => if rowBefore keys x r then x :: insertRow keys r xs else r :: x :: xs

/-- Stable sort of rows under an `ORDER BY` list. -/
def sortRows (keys : List (Str × Bool)) (rows : List Row) : List Row :=
  rows.foldr (insertRow keys) []

/-- The columns named between the parentheses that open a fragment. -/
def leadingColumns (q : Str) : List Str := split ((q.drop 1).takeWhile (fun c => c != ')')) ','

/-- A statement being assembled: the rows that satisfy its conditions, in table
order, its `ORDER BY` list, and its `LIMIT` and `OFFSET` if it has them. -/
structure Pending where
  rows : List Row
  keys : List (Str × Bool)
  limit : Option Int
  offset : Option Int

/-- Whether the statement has an `OFFSET` that is written into it. -/
def Pending.skips (s : Pending) : Bool :=
  match s.offset with
  | some offset => decide (0 < offset)
  | none => false

/-- The rows an assembled statement returns: sorted, then cut.  A negative
limit and an offset that is not positive are not written into the statement. -/
def Pending.run (s : Pending) : List Row :=
  let sorted := sortRows s.keys s.rows
  let rest := match s.offset with
    | some offset => sorted.drop offset.toNat
    | none => sorted
  match s.limit with
  | some limit => if limit < 0 then rest else rest.take limit.toNat
  | none => rest

/-- Assembles a statement over `table`, the caller's filter being `keep`. -/
def assemble (table : List Row) (keep : Row → Bool) : DB → Except Err Pending
  | .ctx _ _ _ => .ok ⟨table.filter keep, [], none, none⟩
  | .model _ _ => .ok ⟨table.filter keep, [], none, none⟩
  | .Session _ => .ok ⟨table, [], none, none⟩
  | .Table db _ | .Select db _ | .SetJoins db _ => assemble table keep db
  | .Where db q =>
    match assemble table keep db with
    | .error err => .error err
    | .ok s =>
      match filterRows q s.rows with
      | none => .error (.query 1)
      | some out => .ok { s with rows := out }
  | .WhereSub db q arg =>
    match assemble table keep db, assemble table keep arg with
    | .ok s, .ok sub =>
      .ok { s with rows := s.rows.filter fun r =>
        sub.run.any fun r0 =>
          (leadingColumns q).map (columnValue r) = (leadingColumns q).map (columnValue r0) }
    | .error err, _ => .error err
    | _, .error err => .error err
  | .Order db value =>
    match assemble table keep db with
    | .error err => .error err
    | .ok s =>
      match parseOrder value with
      | none => .error (.query 1)
      | some keys => .ok { s with keys := s.keys ++ keys }
  | .Limit db limit =>
    match assemble table keep db with
    | .error err => .error err
    | .ok s => .ok { s with limit := some limit }
  | .Offset db offset =>
    match assemble table keep db with
    | .error err => .error err
    | .ok s => .ok { s with offset := some offset }

/-- The rows a statement returns over `table`, the caller's filter being `keep`. -/
def runQuery (table : List Row) (keep : Row → Bool) (db : DB) : Except Err (List Row) :=
  match assemble table keep db with
  | .error err => .error err
  | .ok s => .ok s.run

/-- The number a count statement returns: the statement keeps its `LIMIT` and
`OFFSET`, which cut the one row that holds the count. -/
def runCount (table : List Row) (keep : Row → Bool) (db : DB) : Except Err Int :=
  match assemble table keep db with
  | .error err => .error err
  | .ok s =>
    .ok (if s.limit = some 0 ∨ s.skips then 0 else (s.rows.length : Int))

/-- The collaborator that runs statements over a table held in memory. -/
def tableEnv (table : List Row) (keep : Row → Bool) : Env where
  count := runCount table keep
  find := runQuery table keep

/-! ## Forward traversal -/

/-- The pages a caller collects by calling `Paginate("", token)` on a paginator
configured as `p`, passing each page's `NextToken` to the next call, until a
call fails or returns no rows; at most `calls` calls are made. -/
def traverse (lib : Lib) (env : Env) (p : Paginator) : Nat → Str → List (List Row)
  | 0, _ => []
  | calls + 1, token =>
    match (p.Paginate lib env [] token).1 with
    | .error _ => []
    | .ok res => if res.Data = [] then [] else res.Data :: traverse lib env p calls res.NextToken

/-- The sort fields of a paginator, each with whether it descends. -/
def sortKeys (p : Paginator) : List (Str × Bool) := (split p.Fields ',').map fun f => (f, p.Sequence)

/-- The external names of a row that occur inside the sort spec: the names of
its tagged fields that the spec holds as a contiguous run, in declaration order. -/
def namesInSpec (p : Paginator) (r : Row) : List Str :=
  (r.filter fun fd => decide (fd.jsonTag ≠ []) && contains p.Fields fd.name).map Field.name

/-- The boundary mapping of a row: each sort field with the value the row holds. -/
def boundaryKey (p : Paginator) (r : Row) : Cursor :=
  (split p.Fields ',').map fun f => (f, columnValue r f)

/-- The `ORDER BY` list of the configured direction: every sort field followed
by `ASC`, or by `DESC` when the paginator descends. -/
def orderList (p : Paginator) : Str :=
  join ((split p.Fields ',').map fun f => f ++ (if p.Sequence then " DESC".toList else " ASC".toList))
    ",".toList

/-- The statement of the first page: the context, sorted, cut to the page size. -/
def firstPage (p : Paginator) : DB := (p.DB.Order (orderList p)).Limit p.Limit

/-- The statement of the page after the row `r`: the rows of the context whose
sort fields compare `>` (`<` when the paginator descends) with the values `r`
holds, each written as a literal, sorted, cut to the page size. -/
def pageAfter (p : Paginator) (r : Row) : DB :=
  ((p.DB.Where ("(".toList ++ p.Fields ++ (if p.Sequence then ") < (".toList else ") > (".toList) ++
      join ((split p.Fields ',').map fun f => formatValue (columnValue r f)) ", ".toList ++
      ")".toList)).Order (orderList p)).Limit p.Limit

/-- A row with an integer `seq` and an integer `id`. -/
def seqRow (seq id : Int) : Row := [⟨"seq".toList, .num seq⟩, ⟨"id".toList, .num id⟩]

/-- A paginator over the table `t`, sorted by `fields`. -/
def paginatorOn (fields : Str) (start limit : Int) (desc : Bool) : Paginator :=
  ((NewPaginator (.ctx "t".toList [] []) start limit).SetFields fields).SetSequence desc

/-- Three rows, with `seq` 3, 1 and 2. -/
def demoRows : List Row := [seqRow 3 1, seqRow 1 2, seqRow 2 3]

/-- The in-memory collaborator over `demoRows`, nothing filtered out. -/
def demoEnv : Env := tableEnv demoRows (fun _ => true)

/-- A paginator sorted by `seq` ascending, two rows a page. -/
def demoPaginator : Paginator := paginatorOn "seq".toList 0 2 false

/-- A row with three integer columns `a`, `b` and `c`. -/
def abcRow (a b c : Int) : Row := [⟨"a".toList, .num a⟩, ⟨"b".toList, .num b⟩, ⟨"c".toList, .num c⟩]

/-- A row with a string column `name`. -/
def nameRow (name : Str) : Row := [⟨"name".toList, .str name⟩]

/-- An order row: `id`, `paid_at`, and a field tagged `,omitempty` (no name). -/
def orderRow (id paidAt note : Int) : Row :=
  [⟨"id".toList, .num id⟩, ⟨"paid_at,omitempty".toList, .num paidAt⟩, ⟨",omitempty".toList, .num note⟩]

/-- An event row: `created_at` and `id`. -/
def eventRow (createdAt id : Int) : Row := [⟨"created_at".toList, .num createdAt⟩, ⟨"id".toList, .num id⟩]

/-- The rows of `demoRows` in ascending order of `seq`. -/
def demoSorted : List Row := [seqRow 1 2, seqRow 2 3, seqRow 3 1]

/-- Three rows that tie on `seq`. -/
def tiedRows : List Row := [seqRow 1 1, seqRow 1 2, seqRow 1 3]

/-- Three rows that tie on `seq` in part: `(1, 2)`, `(2, 3)` and `(1, 1)`. -/
def pairRows : List Row := [seqRow 1 2, seqRow 2 3, seqRow 1 1]

/-- The rows of `pairRows` in ascending order of `seq`, then `id`. -/
def pairSorted : List Row := [seqRow 1 1, seqRow 1 2, seqRow 2 3]

/-- The in-memory collaborator over `pairRows`, nothing filtered out. -/
def pairEnv : Env := tableEnv pairRows (fun _ => true)

/-- A paginator sorted by `seq`, then `id`, ascending, two rows a page. -/
def pairPaginator : Paginator := paginatorOn "seq,id".toList 0 2 false

/-- An entity whose external names are `createdAt` and `id`. -/
def camelRow (createdAt id : Int) : Row :=
  [⟨"createdAt".toList, .num createdAt⟩, ⟨"id".toList, .num id⟩]

/-- A collaborator that answers every count with `count` and every fetch with `rows`. -/
def stubEnv (count : Int) (rows : List Row) : Env where
  count := fun _ => .ok count
  find := fun _ => .ok rows

/-! ## Which query a call prepared, and which it ran -/

/-- The statement of the plain scan: the caller's context, ordered and limited. -/
def isPlainScan (p : Paginator) (db : DB) : Prop :=
  db = (p.DB.Order (getOrderFields p.Fields (orderMap p.Sequence))).Limit p.Limit

/-- The statement of the deep-offset scan: the deferred join. -/
def isDeepOffsetScan (p : Paginator) (db : DB) : Prop :=
  p.getDelayedAssociationDB (getOrderFields p.Fields (orderMap p.Sequence)) = .ok db

/-- The token the cursor scan decodes. -/
def cursorToken (prevToken nextToken : Str) : Str :=
  if prevToken ≠ [] then prevToken else nextToken

/-- A call with the outcome `out` ran the statement `db`: it left `db` in the
paginator and returned what the fetch of `db` gave, that is its error, or a
result whose `Total` is the count and whose `Data` are the rows fetched (in
reverse for a previous page). -/
def fetched (env : Env) (count : Int) (prevToken : Str) (db : DB)
    (out : Except Err Result × Paginator) : Prop :=
  out.2.DB = db ∧
  match env.find db with
  | .error err => out.1 = .error err
  | .ok data => ∃ res, out.1 = .ok res ∧ res.Total = count ∧
      res.Data = if prevToken ≠ [] then data.reverse else data

/-- The call ran the plain scan. -/
def runsPlainScan (lib : Lib) (env : Env) (p : Paginator) (prevToken nextToken : Str)
    (count : Int) : Prop :=
  fetched env count prevToken
    ((p.DB.Order (getOrderFields p.Fields (orderMap p.Sequence))).Limit p.Limit)
    (p.Paginate lib env prevToken nextToken)

/-- The call ran the deep-offset scan: it built the deferred join and fetched
it, or it stopped with the panic of the nil table expression while building it,
the paginator untouched. -/
def runsDeepOffsetScan (lib : Lib) (env : Env) (p : Paginator) (prevToken nextToken : Str)
    (count : Int) : Prop :=
  match p.getDelayedAssociationDB (getOrderFields p.Fields (orderMap p.Sequence)) with
  | .error err => p.Paginate lib env prevToken nextToken = (.error err, p)
  | .ok db => fetched env count prevToken db (p.Paginate lib env prevToken nextToken)

/-- The call ran the cursor scan: it decoded the cursor token and returned the
error of the base64 library (wrapped), that of the JSON library, or the panic
of `getCompareValue`, the statement untouched; or it fetched the context under
a further condition, ordered and limited. -/
def runsCursorScan (lib : Lib) (env : Env) (p : Paginator) (prevToken nextToken : Str)
    (count : Int) : Prop :=
  match lib.decodeString (cursorToken prevToken nextToken) with
  | .error code =>
    (p.Paginate lib env prevToken nextToken).1 = .error (.invalidCursor code) ∧
      (p.Paginate lib env prevToken nextToken).2.DB = p.DB
  | .ok bytes =>
    match lib.jsonUnmarshal bytes with
    | .error code =>
      (p.Paginate lib env prevToken nextToken).1 = .error (.unmarshal code) ∧
        (p.Paginate lib env prevToken nextToken).2.DB = p.DB
    | .ok pageData =>
      match getCompareValue p.Fields pageData with
      | .error err =>
        (p.Paginate lib env prevToken nextToken).1 = .error err ∧
          (p.Paginate lib env prevToken nextToken).2.DB = p.DB
      | .ok _ =>
        ∃ query order, fetched env count prevToken (((p.DB.Where query).Order order).Limit p.Limit)
          (p.Paginate lib env prevToken nextToken)

/-- Whether `value` is the `ORDER BY` list a prepared statement ends with. -/
def DB.orderedBy : DB → Str → Bool
  | .Order _ v, value => decide (v = value)
  | .Limit (.Order _ v) _, value => decide (v = value)
  | _, _ => false

/-- Rows sorted under a key order `le`: ascending, or descending when `desc`. -/
def sortedIn (le : Row → Row → Prop) (desc : Bool) (rows : List Row) : Prop :=
  if desc then rows.Pairwise (fun a b => le b a) else rows.Pairwise le

/-- The key order of `seq`: `a` does not come after `b`. -/
def seqLe (a b : Row) : Prop := rowBefore [("seq".toList, false)] b a = false
/-! ## Lemmas on the embedding -/

/-- A statement is not itself ordered and limited. -/
theorem DB.ne_limit_order (db : DB) (value : Str) (limit : Int) :
    db ≠ (db.Order value).Limit limit := by
  intro h
  have hs := congrArg sizeOf h
  simp at hs
  omega

/-- A statement is not itself under a further condition. -/
theorem DB.ne_where (db : DB) (query : Str) : db ≠ db.Where query := by
  intro h
  have hs := congrArg sizeOf h
  simp at hs
  omega

/-- The deferred join is not the statement it was built from. -/
theorem getDelayedAssociationDB_ne (p : Paginator) (orderField : Str) (db : DB)
    (h : p.getDelayedAssociationDB orderField = .ok db) : db ≠ p.DB := by
  intro hdb
  unfold Paginator.getDelayedAssociationDB at h
  cases ht : p.DB.tableExpr with
  | none => rw [ht] at h; cases h
  | some table =>
    rw [ht] at h
    simp only [Except.ok.injEq] at h
    have hs := congrArg sizeOf (h.trans hdb)
    split_ifs at hs <;> simp at hs <;> omega

/-- The deferred join ends with an `Order`. -/
theorem getDelayedAssociationDB_order (p : Paginator) (orderField : Str) (db : DB)
    (h : p.getDelayedAssociationDB orderField = .ok db) :
    ∃ db0 : DB, db = db0.Order orderField := by
  unfold Paginator.getDelayedAssociationDB at h
  cases ht : p.DB.tableExpr with
  | none => rw [ht] at h; cases h
  | some table =>
    rw [ht] at h
    simp only [Except.ok.injEq] at h
    exact ⟨_, h.symm⟩

/-- The deferred join fails with the nil dereference only. -/
theorem getDelayedAssociationDB_error (p : Paginator) (orderField : Str) (err : Err)
    (h : p.getDelayedAssociationDB orderField = .error err) : err = .nilDereference := by
  unfold Paginator.getDelayedAssociationDB at h
  cases ht : p.DB.tableExpr with
  | none => rw [ht] at h; simp only [Except.error.injEq] at h; exact h.symm
  | some table => rw [ht] at h; cases h

/-- With a successful non-zero count, `Paginate` runs the switch, then the fetch. -/
theorem Paginate_of_count {lib : Lib} {env : Env} {p : Paginator} {count : Int}
    (hc : p.optimizedCount env = .ok count) (h0 : count ≠ 0) (prevToken nextToken : Str) :
    p.Paginate lib env prevToken nextToken =
      match p.switchCase lib (getOrderFields p.Fields (orderMap p.Sequence)) prevToken nextToken with
      | (.error err, p) => (.error err, p)
      | (.ok (), p) =>
        match env.find p.DB with
        | .error err => (.error err, p)
        | .ok data =>
          if data.length = 0 then (.ok ⟨data, count, [], []⟩, p)
          else
            match p.mint lib ⟨data, count, [], []⟩ prevToken with
            | .error err => (.error err, p)
            | .ok res => (.ok res, p) := by
  simp only [Paginator.Paginate, hc, h0, if_false]

/-- The paginator `Paginate` leaves behind is the one the switch leaves behind. -/
theorem Paginate_snd_of_count {lib : Lib} {env : Env} {p : Paginator} {count : Int}
    (hc : p.optimizedCount env = .ok count) (h0 : count ≠ 0) (prevToken nextToken : Str) :
    (p.Paginate lib env prevToken nextToken).2 =
      (p.switchCase lib (getOrderFields p.Fields (orderMap p.Sequence)) prevToken nextToken).2 := by
  rw [Paginate_of_count hc h0]
  rcases hsw : p.switchCase lib (getOrderFields p.Fields (orderMap p.Sequence)) prevToken nextToken
    with ⟨r, q⟩
  cases r with
  | error err => rfl
  | ok u =>
    cases u
    simp only
    cases env.find q.DB with
    | error err => rfl
    | ok data =>
      simp only
      split_ifs
      · rfl
      · cases q.mint lib ⟨data, count, [], []⟩ prevToken <;> rfl

/-- The cursor case when no previous-token is supplied. -/
theorem cursorCase_next (lib : Lib) (p : Paginator) (orderField nextToken : Str) :
    p.cursorCase lib orderField [] nextToken =
      match DecodePageToken lib nextToken with
      | .error err => (.error err, p)
      | .ok pageData =>
        match getCompareValue p.Fields pageData with
        | .error err => (.error err, p)
        | .ok values =>
          (.ok (), { p with DB := ((p.DB.Where (whereFragment p.Fields
            (comparableMap (decide (nextToken ≠ []) && !p.Sequence)) values)).Order
            orderField).Limit p.Limit }) := by
  simp [Paginator.cursorCase]

/-- The cursor case when a previous-token is supplied. -/
theorem cursorCase_prev (lib : Lib) (p : Paginator) (orderField prevToken nextToken : Str)
    (hp : prevToken ≠ []) :
    p.cursorCase lib orderField prevToken nextToken =
      match DecodePageToken lib prevToken with
      | .error err => (.error err, { p with Sequence := !p.Sequence })
      | .ok pageData =>
        match getCompareValue p.Fields pageData with
        | .error err => (.error err, { p with Sequence := !p.Sequence })
        | .ok values =>
          (.ok (), { p with Sequence := !p.Sequence,
                            DB := ((p.DB.Where (whereFragment p.Fields
            (comparableMap p.Sequence) values)).Order
            (getOrderFields p.Fields (orderMap (!p.Sequence)))).Limit p.Limit }) := by
  have hb : ∀ a b : Bool, (a && b || b) = b := by decide
  simp [Paginator.cursorCase, hp, hb]

/-- The switch takes the cursor case as soon as one token is not empty. -/
theorem switchCase_of_token (lib : Lib) (p : Paginator) (orderField prevToken nextToken : Str)
    (htok : prevToken ≠ [] ∨ nextToken ≠ []) :
    p.switchCase lib orderField prevToken nextToken =
      p.cursorCase lib orderField prevToken nextToken := by
  unfold Paginator.switchCase
  have h1 : ¬ (p.Start = 0 ∧ prevToken = [] ∧ nextToken = []) := by
    rintro ⟨-, hp, hn⟩
    rcases htok with h | h
    · exact h hp
    · exact h hn
  have h2 : ¬ (p.Start > 0 ∧ prevToken = [] ∧ nextToken = []) := by
    rintro ⟨-, hp, hn⟩
    rcases htok with h | h
    · exact h hp
    · exact h hn
  rw [if_neg h1, if_neg h2]

/-- With a previous-token, `Paginate` does not look at the next-token. -/
theorem Paginate_prev_irrelevant_next (lib : Lib) (env : Env) (p : Paginator)
    (prevToken nextToken : Str) (hp : prevToken ≠ []) :
    p.Paginate lib env prevToken nextToken = p.Paginate lib env prevToken [] := by
  have hsw : ∀ orderField, p.switchCase lib orderField prevToken nextToken =
      p.switchCase lib orderField prevToken [] := fun orderField => by
    rw [switchCase_of_token lib p _ prevToken nextToken (Or.inl hp),
      switchCase_of_token lib p _ prevToken [] (Or.inl hp),
      cursorCase_prev lib p _ prevToken nextToken hp, cursorCase_prev lib p _ prevToken [] hp]
  simp only [Paginator.Paginate, hsw]

/-- The end of `Paginate` never fails: `getKeyValue` returns no error. -/
theorem mint_eq (lib : Lib) (p : Paginator) (res : Result) (prevToken : Str) :
    p.mint lib res prevToken =
      .ok ⟨if prevToken ≠ [] then res.Data.reverse else res.Data, res.Total,
        EncodePageToken lib (getKeyValueLoop (getField p.Fields)
          ((if prevToken ≠ [] then res.Data.reverse else res.Data).headD []) []),
        EncodePageToken lib (getKeyValueLoop (getField p.Fields)
          ((if prevToken ≠ [] then res.Data.reverse else res.Data).getLastD []) [])⟩ := by
  simp [Paginator.mint, getKeyValue]

/-- The statement the switch prepares is ordered by the sort fields, in the
configured direction, or in its inverse when a previous-token is supplied. -/
theorem switchCase_orderedBy (lib : Lib) (p q : Paginator) (prevToken nextToken : Str)
    (h : p.switchCase lib (getOrderFields p.Fields (orderMap p.Sequence)) prevToken nextToken =
      (.ok (), q)) :
    q.DB.orderedBy (getOrderFields p.Fields
      (orderMap (if prevToken ≠ [] then !p.Sequence else p.Sequence))) = true := by
  unfold Paginator.switchCase at h
  split_ifs at h with h1 h2
  · obtain ⟨-, hp, -⟩ := h1
    simp only [Prod.mk.injEq, true_and] at h
    subst h
    simp [DB.orderedBy, hp]
  · obtain ⟨-, hp, -⟩ := h2
    cases hd : p.getDelayedAssociationDB (getOrderFields p.Fields (orderMap p.Sequence)) with
    | error err => rw [hd] at h; simp at h
    | ok db =>
      rw [hd] at h
      simp only [Prod.mk.injEq, true_and] at h
      subst h
      obtain ⟨db0, hdb⟩ := getDelayedAssociationDB_order p _ db hd
      simp [DB.orderedBy, hp, hdb]
  · by_cases hp : prevToken = []
    · subst hp
      rw [cursorCase_next] at h
      cases hd : DecodePageToken lib nextToken with
      | error err => rw [hd] at h; simp at h
      | ok pageData =>
        rw [hd] at h
        dsimp only at h
        cases hv : getCompareValue p.Fields pageData with
        | error err => rw [hv] at h; simp at h
        | ok values =>
          rw [hv] at h
          simp only [Prod.mk.injEq, true_and] at h
          subst h
          simp [DB.orderedBy]
    · rw [cursorCase_prev lib p _ prevToken nextToken hp] at h
      cases hd : DecodePageToken lib prevToken with
      | error err => rw [hd] at h; simp at h
      | ok pageData =>
        rw [hd] at h
        dsimp only at h
        cases hv : getCompareValue p.Fields pageData with
        | error err => rw [hv] at h; simp at h
        | ok values =>
          rw [hv] at h
          simp only [Prod.mk.injEq, true_and] at h
          subst h
          simp [DB.orderedBy, hp]

/-- Reversing rows sorted in one direction sorts them in the other. -/
theorem sortedIn_reverse (le : Row → Row → Prop) (desc : Bool) (rows : List Row)
    (h : sortedIn le (!desc) rows) : sortedIn le desc rows.reverse := by
  cases desc <;> simpa [sortedIn, List.pairwise_reverse] using h

/-- What a first call (`Start == 0`, no token) returns when its fetch succeeds. -/
theorem Paginate_first_fst (lib : Lib) (env : Env) (p : Paginator) (count : Int)
    (data : List Row) (hstart : p.Start = 0)
    (hc : p.optimizedCount env = .ok count) (h0 : count ≠ 0)
    (hfind : env.find ((p.DB.Order (getOrderFields p.Fields (orderMap p.Sequence))).Limit p.Limit) =
      .ok data) :
    (p.Paginate lib env [] []).1 =
      if data.length = 0 then .ok ⟨data, count, [], []⟩
      else .ok ⟨data, count,
        EncodePageToken lib (getKeyValueLoop (getField p.Fields) (data.headD []) []),
        EncodePageToken lib (getKeyValueLoop (getField p.Fields) (data.getLastD []) [])⟩ := by
  have hsw : p.switchCase lib (getOrderFields p.Fields (orderMap p.Sequence)) [] [] =
      (.ok (), { p with
        DB := ((p.DB.Order (getOrderFields p.Fields (orderMap p.Sequence))).Limit p.Limit) }) := by
    unfold Paginator.switchCase
    rw [if_pos ⟨hstart, rfl, rfl⟩]
  rw [Paginate_of_count hc h0, hsw]
  dsimp only
  rw [hfind]
  dsimp only
  split_ifs
  · rfl
  · rw [mint_eq]
    simp

/-- What a call with a next-token alone returns when the token decodes and the
fetch succeeds. -/
theorem Paginate_next_fst (lib : Lib) (env : Env) (p : Paginator) (count : Int)
    (nextToken : Str) (pageData : Cursor) (values : Str) (data : List Row)
    (hc : p.optimizedCount env = .ok count) (h0 : count ≠ 0) (hn : nextToken ≠ [])
    (hd : DecodePageToken lib nextToken = .ok pageData)
    (hv : getCompareValue p.Fields pageData = .ok values)
    (hfind : env.find (((p.DB.Where (whereFragment p.Fields (comparableMap (!p.Sequence))
      values)).Order (getOrderFields p.Fields (orderMap p.Sequence))).Limit p.Limit) = .ok data) :
    (p.Paginate lib env [] nextToken).1 =
      if data.length = 0 then .ok ⟨data, count, [], []⟩
      else .ok ⟨data, count,
        EncodePageToken lib (getKeyValueLoop (getField p.Fields) (data.headD []) []),
        EncodePageToken lib (getKeyValueLoop (getField p.Fields) (data.getLastD []) [])⟩ := by
  have hsw : p.switchCase lib (getOrderFields p.Fields (orderMap p.Sequence)) [] nextToken =
      (.ok (), { p with
        DB := (((p.DB.Where (whereFragment p.Fields (comparableMap (!p.Sequence)) values)).Order
          (getOrderFields p.Fields (orderMap p.Sequence))).Limit p.Limit) }) := by
    rw [switchCase_of_token lib p _ _ _ (Or.inr hn), cursorCase_next, hd]
    dsimp only
    rw [hv]
    simp [hn]
  rw [Paginate_of_count hc h0, hsw]
  dsimp only
  rw [hfind]
  dsimp only
  split_ifs
  · rfl
  · rw [mint_eq]
    simp

/-- A non-empty page of at most `n` rows cut from `rows` ends in a row `last`,
and `rows` is the page, then the rest. -/
theorem take_split_last (rows : List Row) (n : Nat) (hn : 1 ≤ n) (hne : rows ≠ []) :
    ∃ front last, rows.take n = front ++ [last] ∧ rows = front ++ last :: rows.drop n ∧
      (rows.drop n).length < rows.length := by
  have htake : rows.take n ≠ [] := by
    cases rows with
    | nil => exact absurd rfl hne
    | cons a rest =>
      cases n with
      | zero => omega
      | succ m => simp
  rcases List.eq_nil_or_concat (rows.take n) with h | ⟨front, last, h⟩
  · exact absurd h htake
  · rw [List.concat_eq_append] at h
    refine ⟨front, last, h, ?_, ?_⟩
    · have := List.take_append_drop n rows
      rw [h] at this
      simpa using this.symm
    · have hlen : 0 < rows.length := List.length_pos.mpr hne
      rw [List.length_drop]
      omega

/-- In a list strictly sorted under `before`, the rows that sort after a row
are the rows that follow it. -/
theorem filter_rows_after (before : Row → Row → Bool) (front : List Row) (r : Row)
    (back : List Row)
    (h : (front ++ r :: back).Pairwise (fun a b => before a b = true ∧ before b a = false))
    (hirr : before r r = false) :
    (front ++ r :: back).filter (fun x => before r x) = back := by
  rw [List.pairwise_append] at h
  obtain ⟨-, hback, hfront⟩ := h
  rw [List.pairwise_cons] at hback
  have h1 : front.filter (fun x => before r x) = [] := by
    rw [List.filter_eq_nil_iff]
    intro a ha
    simp [(hfront a ha r (List.mem_cons_self _ _)).2]
  have h2 : back.filter (fun x => before r x) = back := by
    rw [List.filter_eq_self]
    intro a ha
    exact (hback.1 a ha).1
  rw [List.filter_append, h1, List.filter_cons, hirr, List.nil_append]
  simpa using h2

/-- A result of `Paginate` holds no rows, or holds the tokens minted from its
first and its last row. -/
theorem Paginate_ok_tokens (lib : Lib) (env : Env) (p q : Paginator)
    (prevToken nextToken : Str) (res : Result)
    (hret : p.Paginate lib env prevToken nextToken = (.ok res, q)) :
    (res.Data = [] ∧ res.PrevToken = [] ∧ res.NextToken = []) ∨
    (res.PrevToken =
        EncodePageToken lib (getKeyValueLoop (getField p.Fields) (res.Data.headD []) []) ∧
      res.NextToken =
        EncodePageToken lib (getKeyValueLoop (getField p.Fields) (res.Data.getLastD []) [])) := by
  cases hc : p.optimizedCount env with
  | error err => simp [Paginator.Paginate, hc] at hret
  | ok count =>
    by_cases h0 : count = 0
    · subst h0
      simp only [Paginator.Paginate, hc, if_true, Prod.mk.injEq, Except.ok.injEq] at hret
      obtain ⟨hres, -⟩ := hret
      subst hres
      exact Or.inl ⟨rfl, rfl, rfl⟩
    · rw [Paginate_of_count hc h0] at hret
      rcases hsw : p.switchCase lib (getOrderFields p.Fields (orderMap p.Sequence)) prevToken
        nextToken with ⟨r, q0⟩
      rw [hsw] at hret
      cases r with
      | error err => simp at hret
      | ok u =>
        cases u
        dsimp only at hret
        have hF : q0.Fields = p.Fields := by
          have h2 := congrArg (fun x => x.2.Fields) hsw
          dsimp only at h2
          rw [← h2]
          unfold Paginator.switchCase
          split_ifs
          · rfl
          · cases p.getDelayedAssociationDB (getOrderFields p.Fields (orderMap p.Sequence)) <;> rfl
          · by_cases hp : prevToken = []
            · subst hp
              rw [cursorCase_next]
              cases DecodePageToken lib nextToken with
              | error err => rfl
              | ok pageData =>
                dsimp only
                cases getCompareValue p.Fields pageData <;> rfl
            · rw [cursorCase_prev lib p _ prevToken nextToken hp]
              cases DecodePageToken lib prevToken with
              | error err => rfl
              | ok pageData =>
                dsimp only
                cases getCompareValue p.Fields pageData <;> rfl
        cases hf : env.find q0.DB with
        | error err => rw [hf] at hret; simp at hret
        | ok data =>
          rw [hf] at hret
          dsimp only at hret
          by_cases hlen : data.length = 0
          · rw [if_pos hlen] at hret
            simp only [Prod.mk.injEq, Except.ok.injEq] at hret
            obtain ⟨hres, -⟩ := hret
            subst hres
            exact Or.inl ⟨List.length_eq_zero.mp hlen, rfl, rfl⟩
          · rw [if_neg hlen, mint_eq, hF] at hret
            simp only [Prod.mk.injEq, Except.ok.injEq] at hret
            obtain ⟨hres, -⟩ := hret
            subst hres
            exact Or.inr ⟨rfl, rfl⟩

/-- Splitting at a separator gives one segment more than there are separators. -/
theorem splitAux_length (sep : Char) (s cur : Str) :
    (splitAux sep s cur).length = s.count sep + 1 := by
  induction s generalizing cur with
  | nil => simp [splitAux]
  | cons c cs ih =>
    by_cases h : c = sep
    · simp [splitAux, h, ih]
    · have h2 : (c == sep) = false := by simpa using h
      simp [splitAux, h, ih, List.count_cons, h2]

/-- A string splits into at least two segments exactly when it holds the separator. -/
theorem split_length_ge_two (s : Str) (sep : Char) : 2 ≤ (split s sep).length ↔ sep ∈ s := by
  unfold split
  rw [splitAux_length, ← List.count_pos_iff]
  omega

/-- The `ORDER BY` list in ascending direction: every sort field followed by `ASC`. -/
theorem getOrderFields_asc (s : Str) :
    getOrderFields s (orderMap false) =
      join ((split s ',').map fun f => f ++ " ASC".toList) ",".toList := by
  simp only [getOrderFields, orderMap, List.append_assoc]
  rfl

/-- The `ORDER BY` list in descending direction: every sort field followed by `DESC`. -/
theorem getOrderFields_desc (s : Str) :
    getOrderFields s (orderMap true) =
      join ((split s ',').map fun f => f ++ " DESC".toList) ",".toList := by
  simp only [getOrderFields, orderMap, List.append_assoc]
  rfl

/-- After a switch that prepared a statement, the call ran that statement. -/
theorem Paginate_fetched {lib : Lib} {env : Env} {p : Paginator} {count : Int}
    (hc : p.optimizedCount env = .ok count) (h0 : count ≠ 0) (prevToken nextToken : Str)
    (q : Paginator)
    (hsw : p.switchCase lib (getOrderFields p.Fields (orderMap p.Sequence)) prevToken nextToken =
      (.ok (), q)) :
    fetched env count prevToken q.DB (p.Paginate lib env prevToken nextToken) := by
  rw [Paginate_of_count hc h0, hsw]
  dsimp only
  unfold fetched
  cases hf : env.find q.DB with
  | error err => exact ⟨rfl, rfl⟩
  | ok data =>
    dsimp only
    by_cases hlen : data.length = 0
    · rw [if_pos hlen]
      have hnil : data = [] := List.length_eq_zero.mp hlen
      subst hnil
      exact ⟨rfl, _, rfl, rfl, by simp⟩
    · rw [if_neg hlen, mint_eq]
      exact ⟨rfl, _, rfl, rfl, rfl⟩

/-- After a switch that returned early, the call returns its error. -/
theorem Paginate_switch_error {lib : Lib} {env : Env} {p : Paginator} {count : Int}
    (hc : p.optimizedCount env = .ok count) (h0 : count ≠ 0) (prevToken nextToken : Str)
    (q : Paginator) (err : Err)
    (hsw : p.switchCase lib (getOrderFields p.Fields (orderMap p.Sequence)) prevToken nextToken =
      (.error err, q)) :
    p.Paginate lib env prevToken nextToken = (.error err, q) := by
  rw [Paginate_of_count hc h0, hsw]

/-- The switch with a next-token alone, down to the calls of the two libraries. -/
theorem switchCase_forward (lib : Lib) (p : Paginator) (orderField nextToken : Str)
    (hn : nextToken ≠ []) :
    p.switchCase lib orderField [] nextToken =
      match lib.decodeString nextToken with
      | .error code => (.error (.invalidCursor code), p)
      | .ok bytes =>
        match lib.jsonUnmarshal bytes with
        | .error code => (.error (.unmarshal code), p)
        | .ok pageData =>
          match getCompareValue p.Fields pageData with
          | .error err => (.error err, p)
          | .ok values =>
            (.ok (), { p with DB := ((p.DB.Where ("(".toList ++ p.Fields ++
              (if p.Sequence then ") < (".toList else ") > (".toList) ++ values ++
              ")".toList)).Order orderField).Limit p.Limit }) := by
  rw [switchCase_of_token lib p _ _ _ (Or.inr hn), cursorCase_next]
  unfold DecodePageToken
  cases lib.decodeString nextToken with
  | error code => rfl
  | ok bytes =>
    dsimp only
    cases lib.jsonUnmarshal bytes with
    | error code => rfl
    | ok pageData =>
      dsimp only
      cases getCompareValue p.Fields pageData with
      | error err => rfl
      | ok values =>
        dsimp only
        cases hs : p.Sequence
        · simp [hn, comparableMap, whereFragment]
        · simp [hn, comparableMap, whereFragment]

/-- The switch with a previous-token, down to the calls of the two libraries. -/
theorem switchCase_backward (lib : Lib) (p : Paginator) (orderField prevToken nextToken : Str)
    (hp : prevToken ≠ []) :
    p.switchCase lib orderField prevToken nextToken =
      match lib.decodeString prevToken with
      | .error code => (.error (.invalidCursor code), { p with Sequence := !p.Sequence })
      | .ok bytes =>
        match lib.jsonUnmarshal bytes with
        | .error code => (.error (.unmarshal code), { p with Sequence := !p.Sequence })
        | .ok pageData =>
          match getCompareValue p.Fields pageData with
          | .error err => (.error err, { p with Sequence := !p.Sequence })
          | .ok values =>
            (.ok (), { p with Sequence := !p.Sequence,
                              DB := (((p.DB.Where ("(".toList ++ p.Fields ++
              (if p.Sequence then ") > (".toList else ") < (".toList) ++ values ++
              ")".toList)).Order (getOrderFields p.Fields (orderMap (!p.Sequence)))).Limit
                p.Limit) }) := by
  rw [switchCase_of_token lib p _ _ _ (Or.inl hp), cursorCase_prev lib p _ prevToken nextToken hp]
  unfold DecodePageToken
  cases lib.decodeString prevToken with
  | error code => rfl
  | ok bytes =>
    dsimp only
    cases lib.jsonUnmarshal bytes with
    | error code => rfl
    | ok pageData =>
      dsimp only
      cases getCompareValue p.Fields pageData with
      | error err => rfl
      | ok values =>
        dsimp only
        cases hs : p.Sequence
        · simp [comparableMap, whereFragment]
        · simp [comparableMap, whereFragment]

/-- `getCompareValue` fails with the out-of-range index only. -/
theorem getCompareValue_error (s : Str) (mapp : Cursor) (err : Err)
    (h : getCompareValue s mapp = .error err) : err = .indexOutOfRange := by
  unfold getCompareValue at h
  split_ifs at h
  split at h
  · cases h
  · simp only [Except.error.injEq] at h
    exact h.symm

/-- A statement is not itself under a condition, ordered and limited. -/
theorem DB.ne_limit_order_where (db : DB) (query value : Str) (limit : Int) :
    db ≠ ((db.Where query).Order value).Limit limit := by
  intro h
  have hs := congrArg sizeOf h
  simp at hs
  omega

/-- The statement a call ran is the one it left in the paginator. -/
theorem fetched_db {env : Env} {count : Int} {prevToken : Str} {db : DB}
    {out : Except Err Result × Paginator} (h : fetched env count prevToken db out) :
    out.2.DB = db := h.1

/-- The `ORDER BY` list: every sort field followed by its direction. -/
theorem getOrderFields_direction (s : Str) (desc : Bool) :
    getOrderFields s (orderMap desc) =
      join ((split s ',').map fun f => f ++ (if desc then " DESC".toList else " ASC".toList))
        ",".toList := by
  cases desc
  · simpa using getOrderFields_asc s
  · simpa using getOrderFields_desc s

/-- Traversal from the token minted from a row of the sorted set collects the
rows after it, when each such token decodes to a mapping whose cursor statement
the collaborator answers with the rows that follow the row. -/
theorem traverse_from_cursor (lib : Lib) (env : Env) (p : Paginator) (sorted : List Row)
    (hlimit : 1 ≤ p.Limit)
    (hcount : p.optimizedCount env = .ok (sorted.length : Int))
    (hcursor : ∀ before r after, sorted = before ++ r :: after →
      EncodePageToken lib (getKeyValueLoop (getField p.Fields) r []) ≠ [] ∧
      ∃ pageData values,
        DecodePageToken lib (EncodePageToken lib (getKeyValueLoop (getField p.Fields) r [])) =
          .ok pageData ∧
        getCompareValue p.Fields pageData = .ok values ∧
        env.find (((p.DB.Where (whereFragment p.Fields (comparableMap (!p.Sequence)) values)).Order
          (getOrderFields p.Fields (orderMap p.Sequence))).Limit p.Limit) =
          .ok (after.take p.Limit.toNat)) :
    ∀ calls before r after, sorted = before ++ r :: after → after.length < calls →
      (traverse lib env p calls
        (EncodePageToken lib (getKeyValueLoop (getField p.Fields) r []))).flatten = after := by
  intro calls
  induction calls with
  | zero => intro before r after _ hlen; omega
  | succ c ih =>
    intro before r after hs hlen
    obtain ⟨hne, pageData, values, hdec, hval, hfind⟩ := hcursor before r after hs
    have h0 : (sorted.length : Int) ≠ 0 := by
      have : sorted.length ≠ 0 := by rw [hs]; simp
      exact_mod_cast this
    have hP := Paginate_next_fst lib env p _ _ pageData values _ hcount h0 hne hdec hval hfind
    rw [traverse, hP]
    by_cases hA : after = []
    · subst hA
      simp
    · have hL : 1 ≤ p.Limit.toNat := by omega
      obtain ⟨front, last, htk, hsplit, hdl⟩ := take_split_last after p.Limit.toNat hL hA
      have hlen0 : (after.take p.Limit.toNat).length ≠ 0 := by rw [htk]; simp
      have hdne : after.take p.Limit.toNat ≠ [] := by rw [htk]; simp
      rw [if_neg hlen0]
      dsimp only
      rw [if_neg hdne, List.flatten_cons]
      have hlast : (after.take p.Limit.toNat).getLastD [] = last := by rw [htk]; simp
      rw [hlast]
      have hs2 : sorted = (before ++ r :: front) ++ last :: after.drop p.Limit.toNat := by
        rw [hs]
        conv_lhs => rw [hsplit]
        simp
      rw [ih (before ++ r :: front) last (after.drop p.Limit.toNat) hs2 (by omega)]
      exact List.take_append_drop _ _

/-- A split that yields one segment yields the string itself. -/
theorem splitAux_singleton (sep : Char) (s cur x : Str) (h : splitAux sep s cur = [x]) :
    x = cur.reverse ++ s := by
  induction s generalizing cur with
  | nil =>
    simp only [splitAux, List.cons.injEq, and_true] at h
    simp [h]
  | cons c cs ih =>
    by_cases hc : c = sep
    · simp only [splitAux, hc, if_true, List.cons.injEq] at h
      have hlen := splitAux_length sep cs []
      rw [h.2] at hlen
      simp at hlen
    · simp only [splitAux, hc, if_false] at h
      have := ih (c :: cur) h
      simpa using this

/-- A split that yields one segment yields the string itself. -/
theorem split_singleton (s : Str) (sep : Char) (x : Str) (h : split s sep = [x]) : x = s := by
  have := splitAux_singleton sep s [] x h
  simpa using this

/-- The characters of a segment are characters of the string that was split. -/
theorem mem_of_mem_splitAux (sep : Char) (s cur f : Str) (c : Char)
    (hf : f ∈ splitAux sep s cur) (hc : c ∈ f) : c ∈ cur ∨ c ∈ s := by
  induction s generalizing cur with
  | nil =>
    simp only [splitAux, List.mem_singleton] at hf
    subst hf
    exact Or.inl (by simpa using hc)
  | cons d ds ih =>
    by_cases hd : d = sep
    · simp only [splitAux, hd, if_true, List.mem_cons] at hf
      rcases hf with hf | hf
      · subst hf
        exact Or.inl (by simpa using hc)
      · rcases ih [] hf with h | h
        · simp at h
        · exact Or.inr (List.mem_cons_of_mem _ h)
    · simp only [splitAux, hd, if_false] at hf
      rcases ih (d :: cur) hf with h | h
      · rcases List.mem_cons.mp h with h | h
        · subst h
          exact Or.inr (List.mem_cons_self _ _)
        · exact Or.inl h
      · exact Or.inr (List.mem_cons_of_mem _ h)

/-- A segment of a string without a dot has no dot. -/
theorem no_dot_of_mem_split (s : Str) (sep : Char) (f : Str) (hs : '.' ∉ s)
    (hf : f ∈ split s sep) : '.' ∉ f := by
  intro hc
  rcases mem_of_mem_splitAux sep s [] f '.' hf hc with h | h
  · simp at h
  · exact hs h

/-- `getField` returns a name without a dot as it is. -/
theorem getField_of_no_dot (s : Str) (h : '.' ∉ s) : getField s = s := by
  have hlen : ¬ (2 ≤ (split s '.').length) := fun h2 => h ((split_length_ge_two s '.').mp h2)
  unfold getField
  simp only [ge_iff_le]
  rw [if_neg hlen]

/-- In a map that holds each key once, a member is what the read of its key returns. -/
theorem Cursor.get_of_mem (m : Cursor) (k : Str) (v : Value) (hnd : (m.map Prod.fst).Nodup)
    (h : (k, v) ∈ m) : m.get k = v := by
  induction m with
  | nil => simp at h
  | cons kv rest ih =>
    obtain ⟨k0, v0⟩ := kv
    simp only [List.map_cons, List.nodup_cons] at hnd
    rcases List.mem_cons.mp h with h | h
    · simp only [Prod.mk.injEq] at h
      obtain ⟨hk, hv⟩ := h
      subst hk hv
      simp [Cursor.get]
    · have hne : k0 ≠ k := by
        intro hk
        subst hk
        exact hnd.1 (List.mem_map.mpr ⟨(k0, v), h, rfl⟩)
      simp only [Cursor.get, hne, if_false]
      exact ih hnd.2 h

/-- The read of a sort field from a mapping with the members of the boundary
mapping of a row returns the value the row holds. -/
theorem Cursor.get_boundary (p : Paginator) (r : Row) (decoded : Cursor) (f : Str)
    (hnodup : (split p.Fields ',').Nodup) (hperm : decoded.Perm (boundaryKey p r))
    (hf : f ∈ split p.Fields ',') : decoded.get f = columnValue r f := by
  have hkeys : (boundaryKey p r).map Prod.fst = split p.Fields ',' := by
    simp [boundaryKey, Function.comp_def]
  have hnd : (decoded.map Prod.fst).Nodup := by
    rw [(hperm.map Prod.fst).nodup_iff, hkeys]
    exact hnodup
  refine Cursor.get_of_mem decoded f _ hnd (hperm.mem_iff.mpr ?_)
  exact List.mem_map.mpr ⟨f, hf, rfl⟩

/-- Joining one part gives the part. -/
theorem join_singleton (x sep : Str) : join [x] sep = x := by
  simp [join, List.intercalate]

/-- Joining two parts puts the separator between them. -/
theorem join_pair (x y sep : Str) : join [x, y] sep = x ++ sep ++ y := by
  simp [join, List.intercalate]

/-- From a mapping with the members of the boundary mapping of a row, for one or
two distinct unqualified sort fields, `getCompareValue` lists the literal of the
value the row holds in each sort field. -/
theorem getCompareValue_boundary (p : Paginator) (r : Row) (decoded : Cursor)
    (hfields : (split p.Fields ',').length ≤ 2) (hnodup : (split p.Fields ',').Nodup)
    (hplain : '.' ∉ p.Fields) (hperm : decoded.Perm (boundaryKey p r)) :
    getCompareValue p.Fields decoded =
      .ok (join ((split p.Fields ',').map fun f => formatValue (columnValue r f)) ", ".toList) := by
  have hlen : decoded.length = (split p.Fields ',').length := by
    rw [hperm.length_eq]
    simp [boundaryKey]
  have hget := fun f hf => Cursor.get_boundary p r decoded f hnodup hperm hf
  have hdot := fun f hf => getField_of_no_dot f (no_dot_of_mem_split p.Fields ',' f hplain hf)
  rcases hs : split p.Fields ',' with _ | ⟨f1, _ | ⟨f2, _ | ⟨f3, rest⟩⟩⟩
  · have := splitAux_length ',' p.Fields []
    unfold split at hs
    rw [hs] at this
    simp at this
  · rw [hs] at hlen hget
    have hF : f1 = p.Fields := split_singleton p.Fields ',' f1 hs
    unfold getCompareValue
    rw [if_pos (by simpa using hlen), getField_of_no_dot p.Fields hplain, ← hF,
      hget f1 (by simp)]
    simp [join_singleton]
  · rw [hs] at hlen hget hdot
    have h1 : ¬ decoded.length = 1 := by rw [hlen]; simp
    unfold getCompareValue
    rw [if_neg h1, hs]
    simp only [hdot f1 (by simp), hdot f2 (by simp), hget f1 (by simp), hget f2 (by simp),
      List.map_cons, List.map_nil, join_pair]
  · rw [hs] at hfields
    simp at hfields

/-- A string does not sort before itself. -/
theorem strLt_irrefl (s : Str) : strLt s s = false := by
  induction s with
  | nil => rfl
  | cons c cs ih => simp [strLt, ih]

/-- A scalar compares equal with itself, when it compares at all. -/
theorem Value.cmp_self (v : Value) : v.cmp v = some .eq ∨ v.cmp v = none := by
  cases v with
  | str s => left; simp [Value.cmp, strLt_irrefl]
  | num n => left; simp [Value.cmp, Value.decimal]
  | bool b => left; simp [Value.cmp]
  | null => right; simp [Value.cmp, Value.decimal]
  | frac neg digits scale => left; simp [Value.cmp, Value.decimal]

/-- No row sorts strictly before itself. -/
theorem rowBefore_irrefl (keys : List (Str × Bool)) (r : Row) : rowBefore keys r r = false := by
  induction keys with
  | nil => rfl
  | cons key keys ih =>
    obtain ⟨col, desc⟩ := key
    rcases Value.cmp_self (columnValue r col) with h | h
    · simp [rowBefore, h, ih]
    · simp [rowBefore, h, ih]

/-- The statement the plain scan builds is the statement of the first page. -/
theorem firstPage_eq (p : Paginator) :
    (p.DB.Order (getOrderFields p.Fields (orderMap p.Sequence))).Limit p.Limit = firstPage p := by
  simp only [firstPage, orderList, getOrderFields_direction]

/-- The statement the cursor scan builds from the literals of a row is the
statement of the page after that row. -/
theorem pageAfter_eq (p : Paginator) (r : Row) :
    ((p.DB.Where (whereFragment p.Fields (comparableMap (!p.Sequence))
      (join ((split p.Fields ',').map fun f => formatValue (columnValue r f)) ", ".toList))).Order
      (getOrderFields p.Fields (orderMap p.Sequence))).Limit p.Limit = pageAfter p r := by
  simp only [pageAfter, orderList, getOrderFields_direction]
  cases p.Sequence
  · simp [comparableMap, whereFragment]
  · simp [comparableMap, whereFragment]

/-- The read of a key that a map does not hold returns `nil`. -/
theorem Cursor.get_of_not_mem (m : Cursor) (k : Str) (h : k ∉ m.keys) : m.get k = .null := by
  induction m with
  | nil => rfl
  | cons kv rest ih =>
    obtain ⟨k0, v0⟩ := kv
    simp only [Cursor.keys, List.map_cons, List.mem_cons, not_or] at h
    have hne : k0 ≠ k := fun hk => h.1 hk.symm
    simp only [Cursor.get, hne, if_false]
    exact ih h.2

/-- Two maps with the same members, each key held once, read alike. -/
theorem Cursor.get_of_perm (res m : Cursor) (k : Str) (hperm : res.Perm m)
    (hnd : (m.map Prod.fst).Nodup) : res.get k = m.get k := by
  have hnd2 : (res.map Prod.fst).Nodup := by
    rw [(hperm.map Prod.fst).nodup_iff]
    exact hnd
  by_cases hk : k ∈ m.keys
  · obtain ⟨kv, hkv, hfst⟩ := List.mem_map.mp hk
    obtain ⟨k0, v⟩ := kv
    simp only at hfst
    subst hfst
    rw [Cursor.get_of_mem m k0 v hnd hkv, Cursor.get_of_mem res k0 v hnd2 (hperm.mem_iff.mpr hkv)]
  · have hk2 : k ∉ res.keys := fun h => hk ((hperm.map Prod.fst).mem_iff.mp h)
    rw [Cursor.get_of_not_mem m k hk, Cursor.get_of_not_mem res k hk2]

/-- Assigning to a new key appends the member. -/
theorem Cursor.set_of_not_mem (acc : Cursor) (k : Str) (v : Value)
    (h : k ∉ acc.map Prod.fst) : acc.set k v = acc ++ [(k, v)] := by
  induction acc with
  | nil => rfl
  | cons kv rest ih =>
    obtain ⟨k0, v0⟩ := kv
    simp only [List.map_cons, List.mem_cons, not_or] at h
    simp only [Cursor.set]
    rw [if_neg (fun hk => h.1 hk.symm), ih h.2]
    rfl

/-- Assigning members with distinct new keys, one by one, appends them. -/
theorem foldl_set_of_nodup (ms acc : Cursor) (hnd : (ms.map Prod.fst).Nodup)
    (hdis : ∀ kv ∈ ms, kv.1 ∉ acc.map Prod.fst) :
    ms.foldl (fun a kv => a.set kv.1 kv.2) acc = acc ++ ms := by
  induction ms generalizing acc with
  | nil => simp
  | cons kv rest ih =>
    simp only [List.map_cons, List.nodup_cons] at hnd
    simp only [List.foldl_cons]
    rw [Cursor.set_of_not_mem acc kv.1 kv.2 (hdis kv (by simp)), ih _ hnd.2]
    · simp
    · intro x hx
      simp only [List.map_append, List.map_cons, List.map_nil, List.mem_append,
        List.mem_singleton, not_or]
      refine ⟨hdis x (by simp [hx]), fun hxk => hnd.1 ?_⟩
      rw [← hxk]
      exact List.mem_map_of_mem Prod.fst hx

/-- The loop of `getKeyValue` assigns, in declaration order, the fields that
are tagged and whose name occurs inside the sort spec. -/
theorem getKeyValueLoop_eq_foldl (sortFields : Str) (obj : List Field) (res : Cursor) :
    getKeyValueLoop sortFields obj res =
      ((obj.filter fun fd => decide (fd.jsonTag ≠ []) && contains sortFields fd.name).map
        fun fd => (fd.name, fd.value)).foldl (fun a kv => a.set kv.1 kv.2) res := by
  induction obj generalizing res with
  | nil => rfl
  | cons fd rest ih =>
    rw [getKeyValueLoop]
    by_cases ht : fd.jsonTag = []
    · have hk : ¬ (decide (fd.jsonTag ≠ []) && contains sortFields fd.name) = true := by
        simp [ht]
      rw [if_pos ht, ih]
      simp only [List.filter_cons, hk, if_false, Bool.false_eq_true]
    · rw [if_neg ht]
      dsimp only
      by_cases hc : contains sortFields fd.name = true
      · have hc2 : contains sortFields ((split fd.jsonTag ',').headD []) = true := hc
        have hk : (decide (fd.jsonTag ≠ []) && contains sortFields fd.name) = true := by
          simp [ht, hc]
        rw [if_pos hc2, ih]
        simp only [List.filter_cons, hk, if_true, List.map_cons, List.foldl_cons]
        rfl
      · have hc2 : ¬ contains sortFields ((split fd.jsonTag ',').headD []) = true := hc
        have hk : ¬ (decide (fd.jsonTag ≠ []) && contains sortFields fd.name) = true := by
          simp [hc]
        rw [if_neg hc2, ih]
        simp only [List.filter_cons, hk, if_false, Bool.false_eq_true]

/-- A string without the separator splits into itself. -/
theorem splitAux_of_not_mem (sep : Char) (s cur : Str) (h : sep ∉ s) :
    splitAux sep s cur = [cur.reverse ++ s] := by
  induction s generalizing cur with
  | nil => simp [splitAux]
  | cons c cs ih =>
    simp only [List.mem_cons, not_or] at h
    have hc : c ≠ sep := fun hc => h.1 hc.symm
    simp [splitAux, hc, ih (c :: cur) h.2]

/-- A string without the separator splits into itself. -/
theorem split_of_not_mem (s : Str) (sep : Char) (h : sep ∉ s) : split s sep = [s] := by
  simpa [split] using splitAux_of_not_mem sep s [] h

/-- The value a row holds in the column of a kept field is the value of that
field, when the kept names are distinct and not empty. -/
theorem columnValue_of_kept (p : Paginator) (r : Row) (fd : Field)
    (hnd : (namesInSpec p r).Nodup) (hne : fd.name ≠ []) (hdot : '.' ∉ fd.name)
    (hfd : fd ∈ r.filter fun fd => decide (fd.jsonTag ≠ []) && contains p.Fields fd.name) :
    columnValue r fd.name = fd.value := by
  have hmem : fd ∈ r := (List.mem_filter.mp hfd).1
  have hkept := (List.mem_filter.mp hfd).2
  simp only [Bool.and_eq_true, decide_eq_true_eq] at hkept
  have hcol : (split fd.name '.').getLastD [] = fd.name := by
    rw [split_of_not_mem fd.name '.' hdot]
    rfl
  unfold columnValue
  rw [hcol]
  cases hfind : r.find? (fun f => decide (f.name = fd.name)) with
  | none =>
    have := List.find?_eq_none.mp hfind fd hmem
    simp at this
  | some g =>
    have hg : g.name = fd.name := by
      have := List.find?_some hfind
      simpa using this
    have hgmem : g ∈ r := List.mem_of_find?_eq_some hfind
    have hgtag : g.jsonTag ≠ [] := by
      intro ht
      apply hne
      rw [← hg]
      simp [Field.name, ht, split, splitAux]
    have hgkept : g ∈ r.filter fun fd => decide (fd.jsonTag ≠ []) && contains p.Fields fd.name := by
      refine List.mem_filter.mpr ⟨hgmem, ?_⟩
      simp only [Bool.and_eq_true, decide_eq_true_eq]
      exact ⟨hgtag, by rw [hg]; exact hkept.2⟩
    have hgf : g = fd := List.inj_on_of_nodup_map hnd hgkept hfd hg
    rw [hgf]

/-- When the names of a row that occur inside an unqualified sort spec are the
sort fields, each once and none empty, `getKeyValue` extracts the boundary
mapping of the row: the sort fields with the values the row holds. -/
theorem getKeyValue_boundary (p : Paginator) (r : Row)
    (hnodup : (split p.Fields ',').Nodup) (hplain : '.' ∉ p.Fields)
    (hnames : [] ∉ split p.Fields ',')
    (hrow : (namesInSpec p r).Perm (split p.Fields ',')) :
    ∃ key, getKeyValue r p.Fields = .ok key ∧ key.Perm (boundaryKey p r) := by
  have hnd : (namesInSpec p r).Nodup := hrow.nodup_iff.mpr hnodup
  have hloop : getKeyValue r p.Fields =
      .ok ((r.filter fun fd => decide (fd.jsonTag ≠ []) && contains p.Fields fd.name).map
        fun fd => (fd.name, fd.value)) := by
    unfold getKeyValue
    simp only [getField_of_no_dot p.Fields hplain]
    rw [getKeyValueLoop_eq_foldl, foldl_set_of_nodup _ [] _ (fun _ _ => by simp)]
    · simp
    · simpa [namesInSpec, Function.comp_def] using hnd
  refine ⟨_, hloop, ?_⟩
  have hval : (r.filter fun fd => decide (fd.jsonTag ≠ []) && contains p.Fields fd.name).map
      (fun fd => (fd.name, fd.value)) =
      (namesInSpec p r).map fun f => (f, columnValue r f) := by
    simp only [namesInSpec, List.map_map]
    refine List.map_congr_left fun fd hfd => ?_
    have hin : fd.name ∈ split p.Fields ',' :=
      hrow.mem_iff.mp (List.mem_map_of_mem Field.name hfd)
    have hne : fd.name ≠ [] := fun h => hnames (h ▸ hin)
    have hdot : '.' ∉ fd.name := no_dot_of_mem_split p.Fields ',' fd.name hplain hin
    simp only [Function.comp_def]
    rw [columnValue_of_kept p r fd hnd hne hdot hfd]
  rw [hval]
  exact hrow.map _

/-! ## The claims -/

/-- C1: strategy selection is a three-way choice.  With a positive count and
`Start >= 0`, the call runs the plain scan (it fetches the context ordered and
limited, and returns the outcome of that fetch) iff `Start == 0` and both tokens
are empty; it runs the deep-offset scan (it fetches the deferred join, or stops
at the nil table expression while building it) iff `Start > 0` and both tokens
are empty; and it runs the cursor scan (it decodes the cursor token and returns
the decoding failure, or fetches the context under a condition, ordered and
limited) iff some token is non-empty, whatever `Start`.  The three conditions
cover every call and exclude one another, so exactly one strategy is run. -/
theorem strategy_selection_three_way (lib : Lib) (env : Env) (p : Paginator)
    (prevToken nextToken : Str) (count : Int)
    (hstart : 0 ≤ p.Start) (hc : p.optimizedCount env = .ok count) (hpos : 0 < count) :
    (runsPlainScan lib env p prevToken nextToken count ↔
        p.Start = 0 ∧ prevToken = [] ∧ nextToken = []) ∧
    (runsDeepOffsetScan lib env p prevToken nextToken count ↔
        0 < p.Start ∧ prevToken = [] ∧ nextToken = []) ∧
    (runsCursorScan lib env p prevToken nextToken count ↔
        (prevToken ≠ [] ∨ nextToken ≠ [])) ∧
    ((p.Start = 0 ∧ prevToken = [] ∧ nextToken = []) ∨
      (0 < p.Start ∧ prevToken = [] ∧ nextToken = []) ∨
      (prevToken ≠ [] ∨ nextToken ≠ [])) ∧
    ¬ ((p.Start = 0 ∧ prevToken = [] ∧ nextToken = []) ∧
        (0 < p.Start ∧ prevToken = [] ∧ nextToken = [])) ∧
    ¬ ((p.Start = 0 ∧ prevToken = [] ∧ nextToken = []) ∧ (prevToken ≠ [] ∨ nextToken ≠ [])) ∧
    ¬ ((0 < p.Start ∧ prevToken = [] ∧ nextToken = []) ∧ (prevToken ≠ [] ∨ nextToken ≠ [])) := by
  have h0 : count ≠ 0 := by omega
  -- the three conditions cover every call and exclude one another
  have hcover : (p.Start = 0 ∧ prevToken = [] ∧ nextToken = []) ∨
      (0 < p.Start ∧ prevToken = [] ∧ nextToken = []) ∨ (prevToken ≠ [] ∨ nextToken ≠ []) := by
    by_cases hp : prevToken = []
    · by_cases hn : nextToken = []
      · rcases lt_or_eq_of_le hstart with h | h
        · exact Or.inr (Or.inl ⟨h, hp, hn⟩)
        · exact Or.inl ⟨h.symm, hp, hn⟩
      · exact Or.inr (Or.inr (Or.inr hn))
    · exact Or.inr (Or.inr (Or.inl hp))
  have hAB : ¬ ((p.Start = 0 ∧ prevToken = [] ∧ nextToken = []) ∧
      (0 < p.Start ∧ prevToken = [] ∧ nextToken = [])) := fun h => by omega
  have hAC : ¬ ((p.Start = 0 ∧ prevToken = [] ∧ nextToken = []) ∧
      (prevToken ≠ [] ∨ nextToken ≠ [])) := by
    rintro ⟨⟨-, hp, hn⟩, h | h⟩
    · exact h hp
    · exact h hn
  have hBC : ¬ ((0 < p.Start ∧ prevToken = [] ∧ nextToken = []) ∧
      (prevToken ≠ [] ∨ nextToken ≠ [])) := by
    rintro ⟨⟨-, hp, hn⟩, h | h⟩
    · exact h hp
    · exact h hn
  -- each condition makes the call run its strategy
  have fP : (p.Start = 0 ∧ prevToken = [] ∧ nextToken = []) →
      runsPlainScan lib env p prevToken nextToken count := by
    intro h
    have hsw : p.switchCase lib (getOrderFields p.Fields (orderMap p.Sequence)) prevToken
        nextToken = (.ok (), { p with
          DB := ((p.DB.Order (getOrderFields p.Fields (orderMap p.Sequence))).Limit p.Limit) }) := by
      unfold Paginator.switchCase
      rw [if_pos h]
    exact Paginate_fetched hc h0 prevToken nextToken _ hsw
  have fD : (0 < p.Start ∧ prevToken = [] ∧ nextToken = []) →
      runsDeepOffsetScan lib env p prevToken nextToken count := by
    intro h
    have h1 : ¬ (p.Start = 0 ∧ prevToken = [] ∧ nextToken = []) := fun h1 => hAB ⟨h1, h⟩
    unfold runsDeepOffsetScan
    cases hd : p.getDelayedAssociationDB (getOrderFields p.Fields (orderMap p.Sequence)) with
    | error err =>
      dsimp only
      have hsw : p.switchCase lib (getOrderFields p.Fields (orderMap p.Sequence)) prevToken
          nextToken = (.error err, p) := by
        unfold Paginator.switchCase
        rw [if_neg h1, if_pos h, hd]
      exact Paginate_switch_error hc h0 prevToken nextToken p err hsw
    | ok db =>
      dsimp only
      have hsw : p.switchCase lib (getOrderFields p.Fields (orderMap p.Sequence)) prevToken
          nextToken = (.ok (), { p with DB := db }) := by
        unfold Paginator.switchCase
        rw [if_neg h1, if_pos h, hd]
      exact Paginate_fetched hc h0 prevToken nextToken _ hsw
  have fK : (prevToken ≠ [] ∨ nextToken ≠ []) →
      runsCursorScan lib env p prevToken nextToken count := by
    intro h
    unfold runsCursorScan
    by_cases hp : prevToken = []
    · subst hp
      have hn : nextToken ≠ [] := by
        rcases h with h | h
        · exact absurd rfl h
        · exact h
      have hsw := switchCase_forward lib p (getOrderFields p.Fields (orderMap p.Sequence))
        nextToken hn
      have htk : cursorToken [] nextToken = nextToken := by simp [cursorToken]
      rw [htk]
      cases hb : lib.decodeString nextToken with
      | error code =>
        rw [hb] at hsw
        rw [Paginate_switch_error hc h0 [] nextToken p _ hsw]
        exact ⟨rfl, rfl⟩
      | ok bytes =>
        rw [hb] at hsw
        dsimp only at hsw ⊢
        cases hj : lib.jsonUnmarshal bytes with
        | error code =>
          rw [hj] at hsw
          rw [Paginate_switch_error hc h0 [] nextToken p _ hsw]
          exact ⟨rfl, rfl⟩
        | ok pageData =>
          rw [hj] at hsw
          dsimp only at hsw ⊢
          cases hv : getCompareValue p.Fields pageData with
          | error err =>
            rw [hv] at hsw
            rw [Paginate_switch_error hc h0 [] nextToken p _ hsw]
            exact ⟨rfl, rfl⟩
          | ok values =>
            rw [hv] at hsw
            exact ⟨_, _, Paginate_fetched hc h0 [] nextToken _ hsw⟩
    · have hsw := switchCase_backward lib p (getOrderFields p.Fields (orderMap p.Sequence))
        prevToken nextToken hp
      have htk : cursorToken prevToken nextToken = prevToken := by simp [cursorToken, hp]
      rw [htk]
      cases hb : lib.decodeString prevToken with
      | error code =>
        rw [hb] at hsw
        rw [Paginate_switch_error hc h0 prevToken nextToken _ _ hsw]
        exact ⟨rfl, rfl⟩
      | ok bytes =>
        rw [hb] at hsw
        dsimp only at hsw ⊢
        cases hj : lib.jsonUnmarshal bytes with
        | error code =>
          rw [hj] at hsw
          rw [Paginate_switch_error hc h0 prevToken nextToken _ _ hsw]
          exact ⟨rfl, rfl⟩
        | ok pageData =>
          rw [hj] at hsw
          dsimp only at hsw ⊢
          cases hv : getCompareValue p.Fields pageData with
          | error err =>
            rw [hv] at hsw
            rw [Paginate_switch_error hc h0 prevToken nextToken _ _ hsw]
            exact ⟨rfl, rfl⟩
          | ok values =>
            rw [hv] at hsw
            exact ⟨_, _, Paginate_fetched hc h0 prevToken nextToken _ hsw⟩
  -- what each strategy leaves behind tells the strategies apart
  have oD : runsDeepOffsetScan lib env p prevToken nextToken count →
      ((p.Paginate lib env prevToken nextToken).1 = .error .nilDereference ∧
        (p.Paginate lib env prevToken nextToken).2.DB = p.DB) ∨
      ∃ db0 : DB, ∃ value, (p.Paginate lib env prevToken nextToken).2.DB = db0.Order value ∧
        db0.Order value ≠ p.DB := by
    intro h
    unfold runsDeepOffsetScan at h
    cases hd : p.getDelayedAssociationDB (getOrderFields p.Fields (orderMap p.Sequence)) with
    | error err =>
      rw [hd] at h
      dsimp only at h
      rw [h, getDelayedAssociationDB_error p _ err hd]
      exact Or.inl ⟨rfl, rfl⟩
    | ok db =>
      rw [hd] at h
      dsimp only at h
      obtain ⟨db0, hdb⟩ := getDelayedAssociationDB_order p _ db hd
      refine Or.inr ⟨db0, _, h.1.trans hdb, ?_⟩
      rw [← hdb]
      exact getDelayedAssociationDB_ne p _ db hd
  have oK : runsCursorScan lib env p prevToken nextToken count →
      ((p.Paginate lib env prevToken nextToken).2.DB = p.DB ∧
        ∃ err, (p.Paginate lib env prevToken nextToken).1 = .error err ∧
          err ≠ .nilDereference) ∨
      ∃ query order, (p.Paginate lib env prevToken nextToken).2.DB =
        ((p.DB.Where query).Order order).Limit p.Limit := by
    intro h
    unfold runsCursorScan at h
    cases hb : lib.decodeString (cursorToken prevToken nextToken) with
    | error code =>
      rw [hb] at h
      exact Or.inl ⟨h.2, _, h.1, fun hne => by cases hne⟩
    | ok bytes =>
      rw [hb] at h
      dsimp only at h
      cases hj : lib.jsonUnmarshal bytes with
      | error code =>
        rw [hj] at h
        exact Or.inl ⟨h.2, _, h.1, fun hne => by cases hne⟩
      | ok pageData =>
        rw [hj] at h
        dsimp only at h
        cases hv : getCompareValue p.Fields pageData with
        | error err =>
          rw [hv] at h
          refine Or.inl ⟨h.2, _, h.1, fun hne => ?_⟩
          rw [getCompareValue_error _ _ _ hv] at hne
          cases hne
        | ok values =>
          rw [hv] at h
          obtain ⟨query, order, hf⟩ := h
          exact Or.inr ⟨query, order, hf.1⟩
  have xPD : ¬ (runsPlainScan lib env p prevToken nextToken count ∧
      runsDeepOffsetScan lib env p prevToken nextToken count) := by
    rintro ⟨hP, hD⟩
    have h1 := hP.1
    rcases oD hD with ⟨-, h2⟩ | ⟨db0, value, h2, -⟩
    · rw [h2] at h1
      exact DB.ne_limit_order _ _ _ h1
    · rw [h2] at h1
      cases h1
  have xPK : ¬ (runsPlainScan lib env p prevToken nextToken count ∧
      runsCursorScan lib env p prevToken nextToken count) := by
    rintro ⟨hP, hK⟩
    have h1 := hP.1
    rcases oK hK with ⟨h2, -⟩ | ⟨query, order, h2⟩
    · rw [h2] at h1
      exact DB.ne_limit_order _ _ _ h1
    · rw [h2] at h1
      simp only [DB.Limit.injEq, DB.Order.injEq] at h1
      exact DB.ne_where _ _ h1.1.1.symm
  have xDK : ¬ (runsDeepOffsetScan lib env p prevToken nextToken count ∧
      runsCursorScan lib env p prevToken nextToken count) := by
    rintro ⟨hD, hK⟩
    rcases oD hD with ⟨h1, h2⟩ | ⟨db0, value, h1, hne⟩
    · rcases oK hK with ⟨-, err, h3, h4⟩ | ⟨query, order, h3⟩
      · rw [h1] at h3
        simp only [Except.error.injEq] at h3
        exact h4 h3.symm
      · rw [h2] at h3
        exact DB.ne_limit_order_where _ _ _ _ h3
    · rcases oK hK with ⟨h3, -⟩ | ⟨query, order, h3⟩
      · rw [h1] at h3
        exact hne h3
      · rw [h1] at h3
        cases h3
  refine ⟨⟨fun h => ?_, fP⟩, ⟨fun h => ?_, fD⟩, ⟨fun h => ?_, fK⟩, hcover, hAB, hAC, hBC⟩
  · rcases hcover with hA | hB | hC
    · exact hA
    · exact absurd ⟨h, fD hB⟩ xPD
    · exact absurd ⟨h, fK hC⟩ xPK
  · rcases hcover with hA | hB | hC
    · exact absurd ⟨fP hA, h⟩ xPD
    · exact hB
    · exact absurd ⟨h, fK hC⟩ xDK
  · rcases hcover with hA | hB | hC
    · exact absurd ⟨fP hA, h⟩ xPK
    · exact absurd ⟨fD hB, h⟩ xDK
    · exact hC

/-- Witness of `strategy_selection_three_way`, over three rows: the first page
is the plain scan; with `Start = 1` the deferred join is fetched, and on a
context without a table expression the call stops at the nil pointer; with a
next-token the context is fetched under the fragment `(seq) > (1)`, and a
next-token that is not base64 text is answered with the wrapped error. -/
theorem strategy_selection_three_way_witness :
    (demoPaginator.optimizedCount demoEnv = .ok 3 ∧ (0 : Int) < 3 ∧
      (NewPaginator (.model [] []) 1 2).optimizedCount demoEnv = .ok 3) ∧
    (runsPlainScan goStd demoEnv demoPaginator [] [] 3 ∧
      demoPaginator.Paginate goStd demoEnv [] [] =
        (.ok ⟨[seqRow 1 2, seqRow 2 3], 3, "eyJzZXEiOjF9".toList, "eyJzZXEiOjJ9".toList⟩,
          { demoPaginator with
            DB := (((DB.ctx "t".toList [] []).Order "seq ASC".toList).Limit 2) }) ∧
      demoEnv.find (((DB.ctx "t".toList [] []).Order "seq ASC".toList).Limit 2) =
        .ok [seqRow 1 2, seqRow 2 3]) ∧
    (runsDeepOffsetScan goStd demoEnv (paginatorOn "seq".toList 1 2 false) [] [] 3 ∧
      ((paginatorOn "seq".toList 1 2 false).Paginate goStd demoEnv [] []).2.DB =
        (((DB.Session (DB.ctx "t".toList [] [])).Table "t".toList).WhereSub "(id) IN (?)".toList
          (((((DB.ctx "t".toList [] []).Select "id".toList).Order "seq ASC".toList).Offset 1).Limit
            2)).Order "seq ASC".toList ∧
      ((paginatorOn "seq".toList 1 2 false).Paginate goStd demoEnv [] []).1 =
        .ok ⟨[seqRow 2 3, seqRow 3 1], 3, "eyJzZXEiOjJ9".toList, "eyJzZXEiOjN9".toList⟩) ∧
    (runsDeepOffsetScan goStd demoEnv (NewPaginator (.model [] []) 1 2) [] [] 3 ∧
      (NewPaginator (.model [] []) 1 2).Paginate goStd demoEnv [] [] =
        (.error .nilDereference, NewPaginator (.model [] []) 1 2)) ∧
    (runsCursorScan goStd demoEnv demoPaginator [] "eyJzZXEiOjF9".toList 3 ∧
      demoPaginator.Paginate goStd demoEnv [] "eyJzZXEiOjF9".toList =
        (.ok ⟨[seqRow 2 3, seqRow 3 1], 3, "eyJzZXEiOjJ9".toList, "eyJzZXEiOjN9".toList⟩,
          { demoPaginator with
            DB := ((((DB.ctx "t".toList [] []).Where "(seq) > (1)".toList).Order
              "seq ASC".toList).Limit 2) })) ∧
    (runsCursorScan goStd demoEnv (paginatorOn "seq".toList 5 2 false) [] "!!".toList 3 ∧
      (paginatorOn "seq".toList 5 2 false).Paginate goStd demoEnv [] "!!".toList =
        (.error (.invalidCursor 1), paginatorOn "seq".toList 5 2 false)) :=
  ⟨⟨by decide, by decide, by decide⟩,
    ⟨(strategy_selection_three_way goStd demoEnv demoPaginator [] [] 3
        (by decide) (by decide) (by decide)).1.mpr ⟨by decide, rfl, rfl⟩,
      by decide, by decide⟩,
    ⟨(strategy_selection_three_way goStd demoEnv (paginatorOn "seq".toList 1 2 false) [] [] 3
        (by decide) (by decide) (by decide)).2.1.mpr ⟨by decide, rfl, rfl⟩,
      by decide, by decide⟩,
    ⟨(strategy_selection_three_way goStd demoEnv (NewPaginator (.model [] []) 1 2) [] [] 3
        (by decide) (by decide) (by decide)).2.1.mpr ⟨by decide, rfl, rfl⟩,
      by decide⟩,
    ⟨(strategy_selection_three_way goStd demoEnv demoPaginator [] "eyJzZXEiOjF9".toList 3
        (by decide) (by decide) (by decide)).2.2.1.mpr (Or.inr (by decide)),
      by decide⟩,
    ⟨(strategy_selection_three_way goStd demoEnv (paginatorOn "seq".toList 5 2 false) []
        "!!".toList 3 (by decide) (by decide) (by decide)).2.2.1.mpr (Or.inr (by decide)),
      by decide⟩⟩

/-- C2: in the cursor case the operator follows the direction of the fetch
alone.  Whenever some token is non-empty, the cursor token decodes and the
values are formatted, the statement the call runs is one of two: the context
under the text `(Fields) > (values)`, ordered by every sort field `ASC`, or the
context under `(Fields) < (values)`, ordered by every sort field `DESC`.  The
first is run when the fetch ascends (forward on an ascending paginator,
backward on a descending one), the second when it descends. -/
theorem cursor_operator_follows_direction (lib : Lib) (env : Env) (p : Paginator)
    (prevToken nextToken : Str) (count : Int) (bytes : Str) (pageData : Cursor) (values : Str)
    (hc : p.optimizedCount env = .ok count) (h0 : count ≠ 0)
    (htok : prevToken ≠ [] ∨ nextToken ≠ [])
    (hb : lib.decodeString (cursorToken prevToken nextToken) = .ok bytes)
    (hj : lib.jsonUnmarshal bytes = .ok pageData)
    (hv : getCompareValue p.Fields pageData = .ok values) :
    ((p.Sequence = true ↔ prevToken ≠ []) ∧
      fetched env count prevToken
        (((p.DB.Where ("(".toList ++ p.Fields ++ ") > (".toList ++ values ++ ")".toList)).Order
          (join ((split p.Fields ',').map fun f => f ++ " ASC".toList) ",".toList)).Limit p.Limit)
        (p.Paginate lib env prevToken nextToken)) ∨
    ((p.Sequence = true ↔ prevToken = []) ∧
      fetched env count prevToken
        (((p.DB.Where ("(".toList ++ p.Fields ++ ") < (".toList ++ values ++ ")".toList)).Order
          (join ((split p.Fields ',').map fun f => f ++ " DESC".toList) ",".toList)).Limit p.Limit)
        (p.Paginate lib env prevToken nextToken)) := by
  by_cases hp : prevToken = []
  · subst hp
    have hn : nextToken ≠ [] := by
      rcases htok with h | h
      · exact absurd rfl h
      · exact h
    have htk : cursorToken [] nextToken = nextToken := by simp [cursorToken]
    rw [htk] at hb
    have hsw := switchCase_forward lib p (getOrderFields p.Fields (orderMap p.Sequence))
      nextToken hn
    rw [hb] at hsw
    dsimp only at hsw
    rw [hj] at hsw
    dsimp only at hsw
    rw [hv] at hsw
    dsimp only at hsw
    have hf := Paginate_fetched hc h0 [] nextToken _ hsw
    cases hs : p.Sequence
    · rw [hs] at hf
      simp only [Bool.false_eq_true, if_false, getOrderFields_asc] at hf
      exact Or.inl ⟨by simp, hf⟩
    · rw [hs] at hf
      simp only [if_true, getOrderFields_desc] at hf
      exact Or.inr ⟨by simp, hf⟩
  · have htk : cursorToken prevToken nextToken = prevToken := by simp [cursorToken, hp]
    rw [htk] at hb
    have hsw := switchCase_backward lib p (getOrderFields p.Fields (orderMap p.Sequence))
      prevToken nextToken hp
    rw [hb] at hsw
    dsimp only at hsw
    rw [hj] at hsw
    dsimp only at hsw
    rw [hv] at hsw
    dsimp only at hsw
    have hf := Paginate_fetched hc h0 prevToken nextToken _ hsw
    cases hs : p.Sequence
    · rw [hs] at hf
      simp only [Bool.false_eq_true, if_false, Bool.not_false, getOrderFields_desc] at hf
      exact Or.inr ⟨by simp [hp], hf⟩
    · rw [hs] at hf
      simp only [if_true, Bool.not_true, getOrderFields_asc] at hf
      exact Or.inl ⟨by simp [hp], hf⟩

/-- Witness of `cursor_operator_follows_direction`, over three rows: the four
fetches of an ascending and of a descending paginator, forward and backward,
each with the statement it runs written out; and the forward fetch after a
cursor value of one million, which is written as `1e+06`. -/
theorem cursor_operator_follows_direction_witness :
    (demoPaginator.optimizedCount demoEnv = .ok 3 ∧ (3 : Int) ≠ 0 ∧
      goStd.decodeString "eyJzZXEiOjF9".toList = .ok "\x7b\"seq\":1\x7d".toList ∧
      goStd.jsonUnmarshal "\x7b\"seq\":1\x7d".toList = .ok [("seq".toList, .num 1)] ∧
      getCompareValue demoPaginator.Fields [("seq".toList, .num 1)] = .ok "1".toList) ∧
    (demoPaginator.Paginate goStd demoEnv [] "eyJzZXEiOjF9".toList).2.DB =
      (((DB.ctx "t".toList [] []).Where "(seq) > (1)".toList).Order "seq ASC".toList).Limit 2 ∧
    (demoPaginator.Paginate goStd demoEnv "eyJzZXEiOjN9".toList []).2.DB =
      (((DB.ctx "t".toList [] []).Where "(seq) < (3)".toList).Order "seq DESC".toList).Limit 2 ∧
    ((paginatorOn "seq".toList 0 2 true).Paginate goStd demoEnv [] "eyJzZXEiOjN9".toList).2.DB =
      (((DB.ctx "t".toList [] []).Where "(seq) < (3)".toList).Order "seq DESC".toList).Limit 2 ∧
    ((paginatorOn "seq".toList 0 2 true).Paginate goStd demoEnv "eyJzZXEiOjF9".toList []).2.DB =
      (((DB.ctx "t".toList [] []).Where "(seq) > (1)".toList).Order "seq ASC".toList).Limit 2 ∧
    (goStd.jsonUnmarshal "\x7b\"seq\":1000000\x7d".toList = .ok [("seq".toList, .num 1000000)] ∧
      (demoPaginator.Paginate goStd demoEnv [] "eyJzZXEiOjEwMDAwMDB9".toList).2.DB =
        (((DB.ctx "t".toList [] []).Where "(seq) > (1e+06)".toList).Order
          "seq ASC".toList).Limit 2) ∧
    (demoEnv.find
        ((((DB.ctx "t".toList [] []).Where "(seq) > (1)".toList).Order "seq ASC".toList).Limit 2) =
      .ok [seqRow 2 3, seqRow 3 1] ∧
     demoEnv.find
        ((((DB.ctx "t".toList [] []).Where "(seq) < (3)".toList).Order "seq DESC".toList).Limit 2) =
      .ok [seqRow 2 3, seqRow 1 2] ∧
     (demoPaginator.Paginate goStd demoEnv [] "eyJzZXEiOjF9".toList).1 =
      .ok ⟨[seqRow 2 3, seqRow 3 1], 3, "eyJzZXEiOjJ9".toList, "eyJzZXEiOjN9".toList⟩ ∧
     (demoPaginator.Paginate goStd demoEnv "eyJzZXEiOjN9".toList []).1 =
      .ok ⟨[seqRow 1 2, seqRow 2 3], 3, "eyJzZXEiOjF9".toList, "eyJzZXEiOjJ9".toList⟩) :=
  ⟨⟨by decide, by decide, by decide, by decide, by decide⟩,
    (cursor_operator_follows_direction goStd demoEnv demoPaginator [] "eyJzZXEiOjF9".toList 3
      "\x7b\"seq\":1\x7d".toList [("seq".toList, .num 1)] "1".toList
      (by decide) (by decide) (by decide) (by decide) (by decide) (by decide)).elim
      (fun h => (fetched_db h.2).trans (by decide)) (fun h => absurd h.1 (by decide)),
    (cursor_operator_follows_direction goStd demoEnv demoPaginator "eyJzZXEiOjN9".toList [] 3
      "\x7b\"seq\":3\x7d".toList [("seq".toList, .num 3)] "3".toList
      (by decide) (by decide) (by decide) (by decide) (by decide) (by decide)).elim
      (fun h => absurd h.1 (by decide)) (fun h => (fetched_db h.2).trans (by decide)),
    (cursor_operator_follows_direction goStd demoEnv (paginatorOn "seq".toList 0 2 true) []
      "eyJzZXEiOjN9".toList 3 "\x7b\"seq\":3\x7d".toList [("seq".toList, .num 3)] "3".toList
      (by decide) (by decide) (by decide) (by decide) (by decide) (by decide)).elim
      (fun h => absurd h.1 (by decide)) (fun h => (fetched_db h.2).trans (by decide)),
    (cursor_operator_follows_direction goStd demoEnv (paginatorOn "seq".toList 0 2 true)
      "eyJzZXEiOjF9".toList [] 3 "\x7b\"seq\":1\x7d".toList [("seq".toList, .num 1)] "1".toList
      (by decide) (by decide) (by decide) (by decide) (by decide) (by decide)).elim
      (fun h => (fetched_db h.2).trans (by decide)) (fun h => absurd h.1 (by decide)),
    ⟨by decide,
      (cursor_operator_follows_direction goStd demoEnv demoPaginator []
        "eyJzZXEiOjEwMDAwMDB9".toList 3 "\x7b\"seq\":1000000\x7d".toList
        [("seq".toList, .num 1000000)] "1e+06".toList
        (by decide) (by decide) (by decide) (by decide) (by decide) (by decide)).elim
        (fun h => (fetched_db h.2).trans (by decide)) (fun h => absurd h.1 (by decide))⟩,
    ⟨by decide, by decide, by decide, by decide⟩⟩

/-- C3: direction and token precedence of the cursor case, for a call whose
count is not zero.  With only a next-token, the token handed to the base64
library is the next-token: its error, or that of the JSON library on the bytes
decoded, is what the call returns; and when the values are formatted the call
runs the context under `(Fields) > (values)` (`<` when the paginator descends),
ordered by every sort field in the configured direction.  With a
previous-token, the call is the same whatever the next-token: the token handed
to the base64 library is the previous-token, and the call runs the context
under `(Fields) < (values)` (`>` when the paginator descends), ordered by every
sort field in the inverse of the configured direction. -/
theorem cursor_direction_and_token_precedence (lib : Lib) (env : Env) (p : Paginator)
    (prevToken nextToken : Str) (count : Int)
    (hc : p.optimizedCount env = .ok count) (h0 : count ≠ 0) :
    (prevToken = [] → nextToken ≠ [] →
      (∀ code, lib.decodeString nextToken = .error code →
        p.Paginate lib env prevToken nextToken = (.error (.invalidCursor code), p)) ∧
      (∀ bytes code, lib.decodeString nextToken = .ok bytes →
        lib.jsonUnmarshal bytes = .error code →
        p.Paginate lib env prevToken nextToken = (.error (.unmarshal code), p)) ∧
      (∀ bytes pageData values, lib.decodeString nextToken = .ok bytes →
        lib.jsonUnmarshal bytes = .ok pageData →
        getCompareValue p.Fields pageData = .ok values →
        fetched env count prevToken
          (((p.DB.Where ("(".toList ++ p.Fields ++
              (if p.Sequence then ") < (".toList else ") > (".toList) ++ values ++
              ")".toList)).Order
            (join ((split p.Fields ',').map fun f =>
              f ++ (if p.Sequence then " DESC".toList else " ASC".toList)) ",".toList)).Limit
            p.Limit)
          (p.Paginate lib env prevToken nextToken))) ∧
    (prevToken ≠ [] →
      (∀ other, p.Paginate lib env prevToken nextToken = p.Paginate lib env prevToken other) ∧
      (∀ code, lib.decodeString prevToken = .error code →
        (p.Paginate lib env prevToken nextToken).1 = .error (.invalidCursor code)) ∧
      (∀ bytes code, lib.decodeString prevToken = .ok bytes →
        lib.jsonUnmarshal bytes = .error code →
        (p.Paginate lib env prevToken nextToken).1 = .error (.unmarshal code)) ∧
      (∀ bytes pageData values, lib.decodeString prevToken = .ok bytes →
        lib.jsonUnmarshal bytes = .ok pageData →
        getCompareValue p.Fields pageData = .ok values →
        fetched env count prevToken
          (((p.DB.Where ("(".toList ++ p.Fields ++
              (if p.Sequence then ") > (".toList else ") < (".toList) ++ values ++
              ")".toList)).Order
            (join ((split p.Fields ',').map fun f =>
              f ++ (if p.Sequence then " ASC".toList else " DESC".toList)) ",".toList)).Limit
            p.Limit)
          (p.Paginate lib env prevToken nextToken))) := by
  refine ⟨fun hp hn => ?_, fun hp => ?_⟩
  · subst hp
    have hsw := switchCase_forward lib p (getOrderFields p.Fields (orderMap p.Sequence))
      nextToken hn
    refine ⟨fun code hb => ?_, fun bytes code hb hj => ?_, fun bytes pageData values hb hj hv => ?_⟩
    · rw [hb] at hsw
      exact Paginate_switch_error hc h0 [] nextToken p _ hsw
    · rw [hb] at hsw
      dsimp only at hsw
      rw [hj] at hsw
      exact Paginate_switch_error hc h0 [] nextToken p _ hsw
    · rw [hb] at hsw
      dsimp only at hsw
      rw [hj] at hsw
      dsimp only at hsw
      rw [hv] at hsw
      dsimp only at hsw
      have hf := Paginate_fetched hc h0 [] nextToken _ hsw
      rw [getOrderFields_direction] at hf
      exact hf
  · have hsw := switchCase_backward lib p (getOrderFields p.Fields (orderMap p.Sequence))
      prevToken nextToken hp
    refine ⟨fun other => ?_, fun code hb => ?_, fun bytes code hb hj => ?_,
      fun bytes pageData values hb hj hv => ?_⟩
    · rw [Paginate_prev_irrelevant_next lib env p prevToken nextToken hp,
        Paginate_prev_irrelevant_next lib env p prevToken other hp]
    · rw [hb] at hsw
      rw [Paginate_switch_error hc h0 prevToken nextToken _ _ hsw]
    · rw [hb] at hsw
      dsimp only at hsw
      rw [hj] at hsw
      rw [Paginate_switch_error hc h0 prevToken nextToken _ _ hsw]
    · rw [hb] at hsw
      dsimp only at hsw
      rw [hj] at hsw
      dsimp only at hsw
      rw [hv] at hsw
      dsimp only at hsw
      have hf := Paginate_fetched hc h0 prevToken nextToken _ hsw
      rw [getOrderFields_direction] at hf
      cases hs : p.Sequence
      · rw [hs] at hf
        simpa using hf
      · rw [hs] at hf
        simpa using hf

/-- Witness of `cursor_direction_and_token_precedence`, over three rows sorted
by `seq`, then `id`, ascending.  With the next-token of the row `(1, 2)` alone
the call runs `(seq,id) > (1, 2)` ordered `seq ASC,id ASC`; with the
previous-token of the row `(2, 3)` and that next-token it runs
`(seq,id) < (2, 3)` ordered `seq DESC,id DESC`, as it does with any other
next-token; and a next-token that is not base64 text is answered with the
wrapped error of the base64 library. -/
theorem cursor_direction_and_token_precedence_witness :
    (pairPaginator.optimizedCount pairEnv = .ok 3 ∧ (3 : Int) ≠ 0 ∧
      goStd.decodeString "eyJpZCI6Miwic2VxIjoxfQ==".toList =
        .ok "\x7b\"id\":2,\"seq\":1\x7d".toList ∧
      goStd.jsonUnmarshal "\x7b\"id\":2,\"seq\":1\x7d".toList =
        .ok [("id".toList, .num 2), ("seq".toList, .num 1)] ∧
      goStd.decodeString "eyJpZCI6Mywic2VxIjoyfQ==".toList =
        .ok "\x7b\"id\":3,\"seq\":2\x7d".toList ∧
      goStd.jsonUnmarshal "\x7b\"id\":3,\"seq\":2\x7d".toList =
        .ok [("id".toList, .num 3), ("seq".toList, .num 2)] ∧
      goStd.decodeString "!!".toList = .error 1) ∧
    (pairPaginator.Paginate goStd pairEnv [] "eyJpZCI6Miwic2VxIjoxfQ==".toList).2.DB =
      (((DB.ctx "t".toList [] []).Where "(seq,id) > (1, 2)".toList).Order
        "seq ASC,id ASC".toList).Limit 2 ∧
    (pairPaginator.Paginate goStd pairEnv "eyJpZCI6Mywic2VxIjoyfQ==".toList
        "eyJpZCI6Miwic2VxIjoxfQ==".toList).2.DB =
      (((DB.ctx "t".toList [] []).Where "(seq,id) < (2, 3)".toList).Order
        "seq DESC,id DESC".toList).Limit 2 ∧
    pairPaginator.Paginate goStd pairEnv "eyJpZCI6Mywic2VxIjoyfQ==".toList
        "eyJpZCI6Miwic2VxIjoxfQ==".toList =
      pairPaginator.Paginate goStd pairEnv "eyJpZCI6Mywic2VxIjoyfQ==".toList "!!".toList ∧
    pairPaginator.Paginate goStd pairEnv [] "!!".toList =
      (.error (.invalidCursor 1), pairPaginator) ∧
    (pairPaginator.Paginate goStd pairEnv [] "eyJpZCI6Miwic2VxIjoxfQ==".toList).1 =
      .ok ⟨[seqRow 2 3], 3, "eyJpZCI6Mywic2VxIjoyfQ==".toList,
        "eyJpZCI6Mywic2VxIjoyfQ==".toList⟩ ∧
    (pairPaginator.Paginate goStd pairEnv "eyJpZCI6Mywic2VxIjoyfQ==".toList
        "eyJpZCI6Miwic2VxIjoxfQ==".toList).1 =
      .ok ⟨[seqRow 1 1, seqRow 1 2], 3, "eyJpZCI6MSwic2VxIjoxfQ==".toList,
        "eyJpZCI6Miwic2VxIjoxfQ==".toList⟩ :=
  ⟨⟨by decide, by decide, by decide, by decide, by decide, by decide, by decide⟩,
    (fetched_db (((cursor_direction_and_token_precedence goStd pairEnv pairPaginator []
      "eyJpZCI6Miwic2VxIjoxfQ==".toList 3 (by decide) (by decide)).1 rfl (by decide)).2.2
      "\x7b\"id\":2,\"seq\":1\x7d".toList [("id".toList, .num 2), ("seq".toList, .num 1)]
      "1, 2".toList (by decide) (by decide) (by decide))).trans (by decide),
    (fetched_db (((cursor_direction_and_token_precedence goStd pairEnv pairPaginator
      "eyJpZCI6Mywic2VxIjoyfQ==".toList "eyJpZCI6Miwic2VxIjoxfQ==".toList 3 (by decide)
      (by decide)).2 (by decide)).2.2.2
      "\x7b\"id\":3,\"seq\":2\x7d".toList [("id".toList, .num 3), ("seq".toList, .num 2)]
      "2, 3".toList (by decide) (by decide) (by decide))).trans (by decide),
    ((cursor_direction_and_token_precedence goStd pairEnv pairPaginator
      "eyJpZCI6Mywic2VxIjoyfQ==".toList "eyJpZCI6Miwic2VxIjoxfQ==".toList 3 (by decide)
      (by decide)).2 (by decide)).1 "!!".toList,
    ((cursor_direction_and_token_precedence goStd pairEnv pairPaginator [] "!!".toList 3
      (by decide) (by decide)).1 rfl (by decide)).1 1 (by decide),
    by decide, by decide⟩

/-- C4: at three sort fields the comparison fragment is not a comparison of two
triples.  `getCompareValue` formats the cursor values of the first two fields
only, and the cursor scan over `a,b,c` after the row `(1, 2, 3)` is handed the
fragment `(a,b,c) > (1, 2)`. -/
theorem compare_value_three_fields_lists_two :
    getCompareValue "a,b,c".toList
        [("a".toList, .num 1), ("b".toList, .num 2), ("c".toList, .num 3)] = .ok "1, 2".toList ∧
    DecodePageToken goStd "eyJhIjoxLCJiIjoyLCJjIjozfQ==".toList =
      .ok [("a".toList, .num 1), ("b".toList, .num 2), ("c".toList, .num 3)] ∧
    ((paginatorOn "a,b,c".toList 0 2 false).Paginate goStd
        (tableEnv [abcRow 1 2 3, abcRow 1 2 4] (fun _ => true)) []
        "eyJhIjoxLCJiIjoyLCJjIjozfQ==".toList).2.DB =
      (((DB.ctx "t".toList [] []).Where "(a,b,c) > (1, 2)".toList).Order
        "a ASC,b ASC,c ASC".toList).Limit 2 := by
  refine ⟨by decide, by decide, by decide⟩

/-- C5 does not hold as stated: over three rows that tie on the sort field
`seq`, two rows a page, the traversal returns the first two rows and then an
empty page, however many calls are made; the page sizes never sum to 3. -/
theorem forward_traversal_skips_tied_rows :
    ¬ ∃ calls, ((traverse goStd (tableEnv tiedRows (fun _ => true)) demoPaginator calls []).map
      List.length).sum = tiedRows.length := by
  rintro ⟨calls, h⟩
  have h1 : (demoPaginator.Paginate goStd (tableEnv tiedRows (fun _ => true)) [] []).1 =
      .ok ⟨[seqRow 1 1, seqRow 1 2], 3, "eyJzZXEiOjF9".toList, "eyJzZXEiOjF9".toList⟩ := by decide
  have h2 : (demoPaginator.Paginate goStd (tableEnv tiedRows (fun _ => true)) []
      "eyJzZXEiOjF9".toList).1 = .ok ⟨[], 3, [], []⟩ := by decide
  match calls with
  | 0 => simp [traverse, tiedRows] at h
  | 1 =>
    simp only [traverse, h1] at h
    simp [tiedRows] at h
  | n + 2 =>
    simp only [traverse, h1] at h
    simp only [reduceCtorEq, if_false, List.cons_ne_self, h2] at h
    simp [tiedRows] at h

/-- C5, amended: exhaustive forward traversal when no two rows tie, for a sort
spec of one or two distinct unqualified field names.  Let `sorted` be the
filtered set, strictly sorted under the `ORDER BY` list of the sort fields (so
no two rows tie), with `Start == 0` and `Limit >= 1`, and let the external
names of each row that occur inside the sort spec be the sort fields, each
once.  Let the collaborator filter, sort and limit over that set: the count is
its size, the statement of the first page returns its first `Limit` rows, and
the statement of the page after a row returns the first `Limit` of the rows
that sort strictly after that row.  Let the codec libraries turn the boundary
mapping of each row into a non-empty token, base64 returning the JSON text it
was given and `json.Unmarshal` reading that text back as the same members.
Then calling `Paginate("", "")` and passing each `NextToken` to the next call
collects every row exactly once, in sort order, and the page sizes sum to the
size of the set. -/
theorem forward_traversal_exhaustive (lib : Lib) (env : Env) (p : Paginator) (sorted : List Row)
    (hstart : p.Start = 0) (hlimit : 1 ≤ p.Limit)
    (hfields : (split p.Fields ',').length ≤ 2) (hnodup : (split p.Fields ',').Nodup)
    (hplain : '.' ∉ p.Fields) (hnames : [] ∉ split p.Fields ',')
    (hstrict : sorted.Pairwise (fun a b =>
      rowBefore (sortKeys p) a b = true ∧ rowBefore (sortKeys p) b a = false))
    (hrows : ∀ r ∈ sorted, (namesInSpec p r).Perm (split p.Fields ','))
    (hcodec : ∀ r ∈ sorted, ∀ key, getKeyValue r p.Fields = .ok key →
      lib.encodeToString (lib.jsonMarshal key) ≠ [] ∧
      lib.decodeString (lib.encodeToString (lib.jsonMarshal key)) = .ok (lib.jsonMarshal key) ∧
      ∃ decoded, lib.jsonUnmarshal (lib.jsonMarshal key) = .ok decoded ∧ decoded.Perm key)
    (hcount : p.optimizedCount env = .ok (sorted.length : Int))
    (hfirst : env.find (firstPage p) = .ok (sorted.take p.Limit.toNat))
    (hcursor : ∀ r ∈ sorted, env.find (pageAfter p r) =
      .ok ((sorted.filter (fun x => rowBefore (sortKeys p) r x)).take p.Limit.toNat)) :
    (traverse lib env p (sorted.length + 1) []).flatten = sorted ∧
    ((traverse lib env p (sorted.length + 1) []).map List.length).sum = sorted.length := by
  have hcur : ∀ front r back, sorted = front ++ r :: back →
      EncodePageToken lib (getKeyValueLoop (getField p.Fields) r []) ≠ [] ∧
      ∃ pageData values,
        DecodePageToken lib (EncodePageToken lib (getKeyValueLoop (getField p.Fields) r [])) =
          .ok pageData ∧
        getCompareValue p.Fields pageData = .ok values ∧
        env.find (((p.DB.Where (whereFragment p.Fields (comparableMap (!p.Sequence)) values)).Order
          (getOrderFields p.Fields (orderMap p.Sequence))).Limit p.Limit) =
          .ok (back.take p.Limit.toNat) := by
    intro front r back hs
    have hmem : r ∈ sorted := by rw [hs]; simp
    obtain ⟨key, hk, hkperm⟩ := getKeyValue_boundary p r hnodup hplain hnames (hrows r hmem)
    obtain ⟨hne, hb, decoded, hj, hdperm⟩ := hcodec r hmem key hk
    have hkl : key = getKeyValueLoop (getField p.Fields) r [] := by
      simp only [getKeyValue, Except.ok.injEq] at hk
      exact hk.symm
    have hdec : DecodePageToken lib (EncodePageToken lib key) = .ok decoded := by
      unfold DecodePageToken EncodePageToken
      rw [hb]
      dsimp only
      rw [hj]
    have hne2 : EncodePageToken lib key ≠ [] := hne
    rw [hkl] at hne2 hdec
    refine ⟨hne2, decoded, _, hdec,
      getCompareValue_boundary p r decoded hfields hnodup hplain (hdperm.trans hkperm), ?_⟩
    rw [pageAfter_eq, hcursor r hmem]
    have hfil : sorted.filter (fun x => rowBefore (sortKeys p) r x) = back := by
      have hst := hstrict
      rw [hs] at hst
      rw [hs]
      exact filter_rows_after (rowBefore (sortKeys p)) front r back hst (rowBefore_irrefl _ r)
    rw [hfil]
  have hmain : (traverse lib env p (sorted.length + 1) []).flatten = sorted := by
    by_cases hS : sorted = []
    · subst hS
      have hz : (p.Paginate lib env [] []).1 = .ok ⟨[], 0, [], []⟩ := by
        simp only [Paginator.Paginate]
        rw [hcount]
        simp
      rw [traverse, hz]
      simp
    · have h0 : (sorted.length : Int) ≠ 0 := by
        have : sorted.length ≠ 0 := by simpa using hS
        exact_mod_cast this
      rw [← firstPage_eq] at hfirst
      have hP := Paginate_first_fst lib env p _ _ hstart hcount h0 hfirst
      have hL : 1 ≤ p.Limit.toNat := by omega
      obtain ⟨front, last, htk, hsplit, hdl⟩ := take_split_last sorted p.Limit.toNat hL hS
      have hlen0 : (sorted.take p.Limit.toNat).length ≠ 0 := by rw [htk]; simp
      have hdne : sorted.take p.Limit.toNat ≠ [] := by rw [htk]; simp
      rw [traverse, hP, if_neg hlen0]
      dsimp only
      rw [if_neg hdne, List.flatten_cons]
      have hlast : (sorted.take p.Limit.toNat).getLastD [] = last := by rw [htk]; simp
      rw [hlast, traverse_from_cursor lib env p sorted hlimit hcount hcur sorted.length front
        last (sorted.drop p.Limit.toNat) hsplit hdl]
      exact List.take_append_drop _ _
  refine ⟨hmain, ?_⟩
  rw [← List.length_flatten, hmain]

/-- Witness of `forward_traversal_exhaustive`: three rows sorted by `seq`, then
`id`, two of which tie on `seq` alone, two rows a page, over the in-memory
collaborator and the standard codec, which returns the members of a boundary
mapping sorted by key. -/
theorem forward_traversal_exhaustive_witness :
    (traverse goStd pairEnv pairPaginator (pairSorted.length + 1) []).flatten = pairSorted ∧
    ((traverse goStd pairEnv pairPaginator (pairSorted.length + 1) []).map List.length).sum =
      pairSorted.length ∧
    traverse goStd pairEnv pairPaginator (pairSorted.length + 1) [] =
      [[seqRow 1 1, seqRow 1 2], [seqRow 2 3]] :=
  and_assoc.mp ⟨forward_traversal_exhaustive goStd pairEnv pairPaginator pairSorted
    (by decide) (by decide) (by decide) (by decide) (by decide) (by decide) (by decide)
    (by decide)
    (fun r hr key hk => by
      cases hk
      simp only [pairSorted, List.mem_cons, List.mem_singleton, List.not_mem_nil, or_false] at hr
      rcases hr with hr | hr | hr
      · subst hr
        exact ⟨by decide, by decide, [("id".toList, .num 1), ("seq".toList, .num 1)], by decide,
          List.Perm.swap _ _ _⟩
      · subst hr
        exact ⟨by decide, by decide, [("id".toList, .num 2), ("seq".toList, .num 1)], by decide,
          List.Perm.swap _ _ _⟩
      · subst hr
        exact ⟨by decide, by decide, [("id".toList, .num 3), ("seq".toList, .num 2)], by decide,
          List.Perm.swap _ _ _⟩)
    (by decide) (by decide)
    (fun r hr => by
      simp only [pairSorted, List.mem_cons, List.mem_singleton, List.not_mem_nil, or_false] at hr
      rcases hr with hr | hr | hr
      · subst hr; decide
      · subst hr; decide
      · subst hr; decide), by decide⟩

/-- C6: the returned order matches the configured direction.  When a call
returns a result, either the count was zero and `Data` is empty, or `Data` is
the sequence fetched for the prepared statement, reversed when the
previous-token is non-empty and unchanged otherwise.  Hence, if the rows
fetched for a statement ordered by the sort fields in a direction are sorted in
that direction, `Data` is sorted in the direction configured before the call,
whatever the next-token. -/
theorem returned_order_matches_configuration (lib : Lib) (env : Env) (p q : Paginator)
    (prevToken nextToken : Str) (res : Result) (le : Row → Row → Prop)
    (hret : p.Paginate lib env prevToken nextToken = (.ok res, q)) :
    ((p.optimizedCount env = .ok 0 ∧ res.Data = []) ∨
      ∃ data, env.find q.DB = .ok data ∧
        res.Data = if prevToken ≠ [] then data.reverse else data) ∧
    ((∀ desc data, q.DB.orderedBy (getOrderFields p.Fields (orderMap desc)) = true →
        env.find q.DB = .ok data → sortedIn le desc data) →
      sortedIn le p.Sequence res.Data) := by
  cases hc : p.optimizedCount env with
  | error err => simp [Paginator.Paginate, hc] at hret
  | ok count =>
    by_cases h0 : count = 0
    · subst h0
      simp only [Paginator.Paginate, hc, if_true, Prod.mk.injEq, Except.ok.injEq] at hret
      obtain ⟨hres, -⟩ := hret
      subst hres
      exact ⟨Or.inl ⟨rfl, rfl⟩, fun _ => by simp [sortedIn]⟩
    · rw [Paginate_of_count hc h0] at hret
      rcases hsw : p.switchCase lib (getOrderFields p.Fields (orderMap p.Sequence)) prevToken
        nextToken with ⟨r, q0⟩
      rw [hsw] at hret
      cases r with
      | error err => simp at hret
      | ok u =>
        cases u
        dsimp only at hret
        have hord := switchCase_orderedBy lib p q0 prevToken nextToken hsw
        cases hf : env.find q0.DB with
        | error err => rw [hf] at hret; simp at hret
        | ok data =>
          rw [hf] at hret
          dsimp only at hret
          have hdata : q0 = q ∧ res.Data = if prevToken ≠ [] then data.reverse else data := by
            by_cases hlen : data.length = 0
            · rw [if_pos hlen] at hret
              simp only [Prod.mk.injEq, Except.ok.injEq] at hret
              obtain ⟨hres, hq⟩ := hret
              subst hres
              have hnil : data = [] := List.length_eq_zero.mp hlen
              subst hnil
              exact ⟨hq, by simp⟩
            · rw [if_neg hlen, mint_eq] at hret
              simp only [Prod.mk.injEq, Except.ok.injEq] at hret
              obtain ⟨hres, hq⟩ := hret
              subst hres
              exact ⟨hq, rfl⟩
          obtain ⟨hq, hd⟩ := hdata
          subst hq
          refine ⟨Or.inr ⟨data, hf, hd⟩, fun hsorted => ?_⟩
          have hs := hsorted _ data hord hf
          rw [hd]
          by_cases hp : prevToken = []
          · simpa [hp] using hs
          · rw [if_pos hp] at hs ⊢
            exact sortedIn_reverse le p.Sequence data hs

/-- Witness of `returned_order_matches_configuration`: with both tokens
supplied to an ascending paginator, the rows fetched in descending order come
back ascending. -/
theorem returned_order_matches_configuration_witness :
    demoPaginator.Paginate goStd demoEnv "eyJzZXEiOjN9".toList "eyJzZXEiOjF9".toList =
      (.ok ⟨[seqRow 1 2, seqRow 2 3], 3, "eyJzZXEiOjF9".toList, "eyJzZXEiOjJ9".toList⟩,
        (demoPaginator.Paginate goStd demoEnv "eyJzZXEiOjN9".toList "eyJzZXEiOjF9".toList).2) ∧
    demoEnv.find
        (demoPaginator.Paginate goStd demoEnv "eyJzZXEiOjN9".toList "eyJzZXEiOjF9".toList).2.DB =
      .ok [seqRow 2 3, seqRow 1 2] ∧
    sortedIn seqLe demoPaginator.Sequence [seqRow 1 2, seqRow 2 3] :=
  ⟨by decide, by decide,
    (returned_order_matches_configuration goStd demoEnv demoPaginator
      (demoPaginator.Paginate goStd demoEnv "eyJzZXEiOjN9".toList "eyJzZXEiOjF9".toList).2
      "eyJzZXEiOjN9".toList "eyJzZXEiOjF9".toList
      ⟨[seqRow 1 2, seqRow 2 3], 3, "eyJzZXEiOjF9".toList, "eyJzZXEiOjJ9".toList⟩ seqLe
      (by decide)).2 (fun desc data hord hfind => by
        cases desc
        · exact absurd hord (by decide)
        · have h2 : demoEnv.find (demoPaginator.Paginate goStd demoEnv "eyJzZXEiOjN9".toList
              "eyJzZXEiOjF9".toList).2.DB = .ok [seqRow 2 3, seqRow 1 2] := by decide
          rw [h2] at hfind
          cases hfind
          simp only [sortedIn, if_true, List.pairwise_cons, List.mem_cons, List.mem_singleton,
            forall_eq_or_imp, forall_eq, List.not_mem_nil, List.Pairwise.nil]
          simp only [seqLe]
          exact ⟨⟨by decide, fun _ h => h.elim⟩, fun _ h => h.elim, trivial⟩)⟩

/-- C7: a call with a previous-token and a count that is not zero leaves the
direction flag of the paginator inverted, whether it returns a result or an
error; `Fields`, `Start`, `Limit` and `PrimaryKeys` are as before. -/
theorem Paginate_prev_leaves_sequence_flipped (lib : Lib) (env : Env) (p : Paginator)
    (prevToken nextToken : Str) (count : Int)
    (hc : p.optimizedCount env = .ok count) (h0 : count ≠ 0) (hp : prevToken ≠ []) :
    (p.Paginate lib env prevToken nextToken).2.Sequence = !p.Sequence ∧
    (p.Paginate lib env prevToken nextToken).2.Fields = p.Fields ∧
    (p.Paginate lib env prevToken nextToken).2.Start = p.Start ∧
    (p.Paginate lib env prevToken nextToken).2.Limit = p.Limit ∧
    (p.Paginate lib env prevToken nextToken).2.PrimaryKeys = p.PrimaryKeys := by
  rw [Paginate_snd_of_count hc h0, switchCase_of_token lib p _ _ _ (Or.inl hp),
    cursorCase_prev lib p _ prevToken nextToken hp]
  cases DecodePageToken lib prevToken with
  | error err => exact ⟨rfl, rfl, rfl, rfl, rfl⟩
  | ok pageData =>
    dsimp only
    cases getCompareValue p.Fields pageData with
    | error err => exact ⟨rfl, rfl, rfl, rfl, rfl⟩
    | ok values => exact ⟨rfl, rfl, rfl, rfl, rfl⟩

/-- Witness of `Paginate_prev_leaves_sequence_flipped`: the page before `seq = 3`
of an ascending paginator is returned, and the paginator is left descending. -/
theorem Paginate_prev_leaves_sequence_flipped_witness :
    (demoPaginator.optimizedCount demoEnv = .ok 3 ∧ (3 : Int) ≠ 0 ∧ "eyJzZXEiOjN9".toList ≠ []) ∧
    demoPaginator.Sequence = false ∧
    (demoPaginator.Paginate goStd demoEnv "eyJzZXEiOjN9".toList []).1 =
      .ok ⟨[seqRow 1 2, seqRow 2 3], 3, "eyJzZXEiOjF9".toList, "eyJzZXEiOjJ9".toList⟩ ∧
    (demoPaginator.Paginate goStd demoEnv "eyJzZXEiOjN9".toList []).2.Sequence = true :=
  ⟨⟨by decide, by decide, by decide⟩, by decide, by decide,
    (Paginate_prev_leaves_sequence_flipped goStd demoEnv demoPaginator "eyJzZXEiOjN9".toList [] 3
      (by decide) (by decide) (by decide)).1⟩

/-- C8: the cursor values are written into the text of the fragment.  Two
cursors with the one key `name` give two different texts, and a value holding
an apostrophe closes the string literal inside the text. -/
theorem where_fragment_interpolates_cursor_values :
    DecodePageToken goStd "eyJuYW1lIjoiYSJ9".toList = .ok [("name".toList, .str "a".toList)] ∧
    DecodePageToken goStd "eyJuYW1lIjoieCcpIE9SICgnMSc9JzEifQ==".toList =
      .ok [("name".toList, .str "x') OR ('1'='1".toList)] ∧
    ((paginatorOn "name".toList 0 2 false).Paginate goStd
        (tableEnv [nameRow "bob".toList] (fun _ => true)) [] "eyJuYW1lIjoiYSJ9".toList).2.DB =
      (((DB.ctx "t".toList [] []).Where "(name) > ('a')".toList).Order
        "name ASC".toList).Limit 2 ∧
    ((paginatorOn "name".toList 0 2 false).Paginate goStd
        (tableEnv [nameRow "bob".toList] (fun _ => true)) []
        "eyJuYW1lIjoieCcpIE9SICgnMSc9JzEifQ==".toList).2.DB =
      (((DB.ctx "t".toList [] []).Where "(name) > ('x') OR ('1'='1')".toList).Order
        "name ASC".toList).Limit 2 := by
  refine ⟨by decide, by decide, by decide, by decide⟩

/-- C9: the extractor keeps every field whose external name occurs somewhere
inside the sort spec.  For the sort spec `paid_at`, a row with the fields `id`,
`paid_at` and one tagged `,omitempty` yields the keys `id`, `paid_at` and the
empty name. -/
theorem getKeyValue_keeps_substring_names :
    getKeyValue (orderRow 7 20 9) "paid_at".toList =
      .ok [("id".toList, .num 7), ("paid_at".toList, .num 20), ([], .num 9)] := by
  decide

/-- C10: the extractor strips the sort spec as one string, down to its second
dot-separated segment.  For `t.created_at,t.id` the names are matched against
`created_at,t`, so a row with `created_at` and `id` yields no `id`; and
`db.t.col` is matched as `t`. -/
theorem getKeyValue_strips_whole_spec :
    getField "t.created_at,t.id".toList = "created_at,t".toList ∧
    getKeyValue (eventRow 5 8) "t.created_at,t.id".toList = .ok [("created_at".toList, .num 5)] ∧
    getField "db.t.col".toList = "t".toList ∧
    getKeyValue [⟨"col".toList, .num 1⟩, ⟨"t".toList, .num 2⟩] "db.t.col".toList =
      .ok [("t".toList, .num 2)] := by
  refine ⟨by decide, by decide, by decide, by decide⟩

/-- C11: `getKeyValue` reports no schema mismatch.  It returns a mapping and no
error for every entity and sort spec; for the default sort spec `created_at`
and an entity whose external names are `createdAt` and `id` the mapping is
empty, and `Paginate` returns the page with two tokens that encode the empty
mapping. -/
theorem getKeyValue_reports_no_mismatch :
    (∀ (obj : Row) (sortFields : Str), ∃ key, getKeyValue obj sortFields = .ok key) ∧
    getKeyValue (camelRow 5 8) DefaultSortFields = .ok [] ∧
    EncodePageToken goStd [] = "e30=".toList ∧
    ((NewPaginator (.ctx "t".toList [] []) 0 2).Paginate goStd
        (stubEnv 2 [camelRow 5 8, camelRow 4 9]) [] []).1 =
      .ok ⟨[camelRow 5 8, camelRow 4 9], 2, "e30=".toList, "e30=".toList⟩ := by
  refine ⟨fun obj sortFields => ⟨_, rfl⟩, by decide, by decide, by decide⟩

/-- C12 does not hold as stated: the integer 9007199254740993 is written into
the token as it is, and `json.Unmarshal` stores it as a float64, so it comes
back as 9007199254740992. -/
theorem token_round_trip_rounds_large_integer :
    EncodePageToken goStd [("id".toList, .num 9007199254740993)] =
      "eyJpZCI6OTAwNzE5OTI1NDc0MDk5M30=".toList ∧
    DecodePageToken goStd "eyJpZCI6OTAwNzE5OTI1NDc0MDk5M30=".toList =
      .ok [("id".toList, .num 9007199254740992)] := by
  refine ⟨by decide, by decide⟩

/-- C12, amended: the token round trip is the round trip of the JSON library.
For every mapping `m` whose JSON text the base64 library returns as it was
encoded, `DecodePageToken` of `EncodePageToken(m)` returns what `json.Unmarshal`
into a `map[string]any` makes of the text `json.Marshal` wrote for `m`: its
error, or its mapping.  Hence, whenever `json.Unmarshal` reads that text back as
the members of `m` (each key once), the round trip returns no error and a
mapping with the same keys as `m` in which every key reads the value it had in
`m`, of the same kind. -/
theorem token_round_trip (lib : Lib) (m : Cursor)
    (hb : lib.decodeString (lib.encodeToString (lib.jsonMarshal m)) = .ok (lib.jsonMarshal m)) :
    DecodePageToken lib (EncodePageToken lib m) =
      (match lib.jsonUnmarshal (lib.jsonMarshal m) with
        | .error code => .error (.unmarshal code)
        | .ok res => .ok res) ∧
    ∀ res, lib.jsonUnmarshal (lib.jsonMarshal m) = .ok res → res.Perm m →
      (m.map Prod.fst).Nodup →
      DecodePageToken lib (EncodePageToken lib m) = .ok res ∧
      (∀ k, k ∈ res.keys ↔ k ∈ m.keys) ∧ ∀ k, res.get k = m.get k := by
  have h1 : DecodePageToken lib (EncodePageToken lib m) =
      (match lib.jsonUnmarshal (lib.jsonMarshal m) with
        | .error code => .error (.unmarshal code)
        | .ok res => .ok res) := by
    unfold DecodePageToken EncodePageToken
    rw [hb]
  refine ⟨h1, fun res hj hperm hnd => ⟨?_, fun k => ?_, fun k => ?_⟩⟩
  · rw [h1, hj]
  · exact (hperm.map Prod.fst).mem_iff
  · exact Cursor.get_of_perm res m k hperm hnd

/-- Witness of `token_round_trip`, under the standard codec: a mapping with a
string that holds a character outside ASCII and the characters `<`, `>`, `&`, a
truth value, a number that is not an integer, and an integer comes back as it
was. -/
theorem token_round_trip_witness :
    goStd.jsonMarshal [("name".toList, .str "é<x>&".toList), ("ok".toList, .bool true),
        ("price".toList, .frac false 15 1), ("seq".toList, .num 7)] =
      "\x7b\"name\":\"é\\u003cx\\u003e\\u0026\",\"ok\":true,\"price\":1.5,\"seq\":7\x7d".toList ∧
    EncodePageToken goStd [("name".toList, .str "é<x>&".toList), ("ok".toList, .bool true),
        ("price".toList, .frac false 15 1), ("seq".toList, .num 7)] =
      "eyJuYW1lIjoiw6lcdTAwM2N4XHUwMDNlXHUwMDI2Iiwib2siOnRydWUsInByaWNlIjoxLjUsInNlcSI6N30=".toList ∧
    DecodePageToken goStd (EncodePageToken goStd
        [("name".toList, .str "é<x>&".toList), ("ok".toList, .bool true),
          ("price".toList, .frac false 15 1), ("seq".toList, .num 7)]) =
      .ok [("name".toList, .str "é<x>&".toList), ("ok".toList, .bool true),
        ("price".toList, .frac false 15 1), ("seq".toList, .num 7)] :=
  ⟨by decide, by decide,
    ((token_round_trip goStd
      [("name".toList, .str "é<x>&".toList), ("ok".toList, .bool true),
        ("price".toList, .frac false 15 1), ("seq".toList, .num 7)] (by decide)).2
      [("name".toList, .str "é<x>&".toList), ("ok".toList, .bool true),
        ("price".toList, .frac false 15 1), ("seq".toList, .num 7)]
      (by decide) (List.Perm.refl _) (by decide)).1⟩

/-- C13 does not hold as stated: the token `e30=` is the base64 text of the
empty object `{}`, and `DecodePageToken` returns the empty mapping for it, with
no error. -/
theorem decode_accepts_empty_object :
    goStd.decodeString "e30=".toList = .ok "\x7b\x7d".toList ∧
    DecodePageToken goStd "e30=".toList = .ok [] := by
  refine ⟨by decide, by decide⟩

/-- C13, amended: `DecodePageToken` fails with the wrapped `invalid cursor`
error exactly when the base64 library rejects the token, fails with the JSON
library's own error (a different error) exactly when the token decodes to bytes
that `json.Unmarshal` rejects for a `map[string]any`, and succeeds exactly when
`json.Unmarshal` accepts the bytes, returning its mapping: the shape of the
mapping (its number of keys, the kind of its values) is not inspected. -/
theorem decode_fails_as_the_libraries_do (lib : Lib) (token : Str) :
    ((∃ code, DecodePageToken lib token = .error (.invalidCursor code)) ↔
      ∃ code, lib.decodeString token = .error code) ∧
    ((∃ code, DecodePageToken lib token = .error (.unmarshal code)) ↔
      ∃ bytes code, lib.decodeString token = .ok bytes ∧ lib.jsonUnmarshal bytes = .error code) ∧
    (∀ m, DecodePageToken lib token = .ok m ↔
      ∃ bytes, lib.decodeString token = .ok bytes ∧ lib.jsonUnmarshal bytes = .ok m) ∧
    (∀ code code0, Err.invalidCursor code ≠ Err.unmarshal code0) ∧
    (∀ err, DecodePageToken lib token = .error err →
      (∃ code, err = .invalidCursor code) ∨ (∃ code, err = .unmarshal code)) := by
  unfold DecodePageToken
  cases hb : lib.decodeString token with
  | error code =>
    refine ⟨⟨fun _ => ⟨code, rfl⟩, fun _ => ⟨code, rfl⟩⟩, ⟨?_, ?_⟩, fun m => ⟨?_, ?_⟩,
      fun _ _ h => (by cases h), fun err h => ?_⟩
    · rintro ⟨c, h⟩
      simp at h
    · rintro ⟨bytes, c, h, -⟩
      simp at h
    · intro h
      simp at h
    · rintro ⟨bytes, h, -⟩
      simp at h
    · simp only [Except.error.injEq] at h
      exact Or.inl ⟨code, h.symm⟩
  | ok bytes =>
    dsimp only
    cases hj : lib.jsonUnmarshal bytes with
    | error code =>
      refine ⟨⟨?_, ?_⟩, ⟨fun _ => ⟨bytes, code, rfl, hj⟩, fun _ => ⟨code, rfl⟩⟩,
        fun m => ⟨?_, ?_⟩, fun _ _ h => (by cases h), fun err h => ?_⟩
      · rintro ⟨c, h⟩
        simp at h
      · rintro ⟨c, h⟩
        simp at h
      · intro h
        simp at h
      · rintro ⟨b, h, h2⟩
        simp only [Except.ok.injEq] at h
        subst h
        rw [hj] at h2
        simp at h2
      · simp only [Except.error.injEq] at h
        exact Or.inr ⟨code, h.symm⟩
    | ok m0 =>
      refine ⟨⟨?_, ?_⟩, ⟨?_, ?_⟩, fun m => ⟨fun h => ⟨bytes, rfl, ?_⟩, ?_⟩,
        fun _ _ h => (by cases h), fun err h => ?_⟩
      · rintro ⟨c, h⟩
        simp at h
      · rintro ⟨c, h⟩
        simp at h
      · rintro ⟨c, h⟩
        simp at h
      · rintro ⟨b, c, h, h2⟩
        simp only [Except.ok.injEq] at h
        subst h
        rw [hj] at h2
        simp at h2
      · simp only [Except.ok.injEq] at h
        rw [hj, h]
      · rintro ⟨b, h, h2⟩
        simp only [Except.ok.injEq] at h
        subst h
        rw [hj] at h2
        simp only [Except.ok.injEq] at h2
        rw [h2]
      · simp at h

/-- C14: the zero-match short circuit.  When the count statement returns 0,
`Paginate` returns the empty result with `Total` 0 and no error and leaves the
paginator as it was, whatever `Start` and the tokens; the result is the same
under any codec library and any `Find`, so no token is decoded and no statement
is fetched. -/
theorem zero_count_short_circuit (lib : Lib) (env : Env) (p : Paginator)
    (prevToken nextToken : Str) (hc : p.optimizedCount env = .ok 0) :
    p.Paginate lib env prevToken nextToken = (.ok ⟨[], 0, [], []⟩, p) ∧
    ∀ (lib0 : Lib) (find0 : DB → Except Err (List Row)),
      p.Paginate lib0 ⟨env.count, find0⟩ prevToken nextToken = (.ok ⟨[], 0, [], []⟩, p) := by
  refine ⟨by simp [Paginator.Paginate, hc], fun lib0 find0 => ?_⟩
  have hc0 : p.optimizedCount ⟨env.count, find0⟩ = .ok 0 := hc
  simp [Paginator.Paginate, hc0]

/-- Witness of `zero_count_short_circuit`: an empty table, a negative `Start`
and two tokens that are not base64 text. -/
theorem zero_count_short_circuit_witness :
    (paginatorOn "seq".toList (-4) 2 false).optimizedCount (tableEnv [] (fun _ => true)) = .ok 0 ∧
    (paginatorOn "seq".toList (-4) 2 false).Paginate goStd (tableEnv [] (fun _ => true))
        "!!".toList "??".toList =
      (.ok ⟨[], 0, [], []⟩, paginatorOn "seq".toList (-4) 2 false) :=
  ⟨by decide,
    (zero_count_short_circuit goStd (tableEnv [] (fun _ => true))
      (paginatorOn "seq".toList (-4) 2 false) "!!".toList "??".toList (by decide)).1⟩

/-- C15: an empty page past the end.  When the count is positive, the switch
prepares a statement and the fetch of that statement returns no rows,
`Paginate` returns no error and the result with `Total` the count, no rows and
two empty tokens. -/
theorem empty_fetch_returns_total (lib : Lib) (env : Env) (p q : Paginator)
    (prevToken nextToken : Str) (count : Int)
    (hc : p.optimizedCount env = .ok count) (hpos : 0 < count)
    (hsw : p.switchCase lib (getOrderFields p.Fields (orderMap p.Sequence)) prevToken nextToken =
      (.ok (), q))
    (hfind : env.find q.DB = .ok []) :
    p.Paginate lib env prevToken nextToken = (.ok ⟨[], count, [], []⟩, q) := by
  have h0 : count ≠ 0 := by omega
  rw [Paginate_of_count hc h0, hsw]
  dsimp only
  rw [hfind]
  simp

/-- Witness of `empty_fetch_returns_total`: the page after the last row. -/
theorem empty_fetch_returns_total_witness :
    (demoPaginator.optimizedCount demoEnv = .ok 3 ∧ (0 : Int) < 3 ∧
      demoPaginator.switchCase goStd (getOrderFields demoPaginator.Fields
          (orderMap demoPaginator.Sequence)) [] "eyJzZXEiOjN9".toList =
        (.ok (), (demoPaginator.switchCase goStd (getOrderFields demoPaginator.Fields
          (orderMap demoPaginator.Sequence)) [] "eyJzZXEiOjN9".toList).2) ∧
      demoEnv.find (demoPaginator.switchCase goStd (getOrderFields demoPaginator.Fields
          (orderMap demoPaginator.Sequence)) [] "eyJzZXEiOjN9".toList).2.DB = .ok []) ∧
    (demoPaginator.Paginate goStd demoEnv [] "eyJzZXEiOjN9".toList).1 = .ok ⟨[], 3, [], []⟩ :=
  ⟨⟨by decide, by decide, by decide, by decide⟩,
    congrArg Prod.fst (empty_fetch_returns_total goStd demoEnv demoPaginator
      (demoPaginator.switchCase goStd (getOrderFields demoPaginator.Fields
        (orderMap demoPaginator.Sequence)) [] "eyJzZXEiOjN9".toList).2
      [] "eyJzZXEiOjN9".toList 3 (by decide) (by decide) (by decide) (by decide))⟩

/-- C16: token minting.  When `Paginate` returns a result that holds rows,
`PrevToken` is `EncodePageToken` of the mapping `getKeyValue` extracts from the
first row of `Data` and `NextToken` is `EncodePageToken` of the mapping it
extracts from the last row of `Data`; on a page of one row the two tokens are
equal. -/
theorem tokens_minted_from_boundary_rows (lib : Lib) (env : Env) (p q : Paginator)
    (prevToken nextToken : Str) (res : Result)
    (hret : p.Paginate lib env prevToken nextToken = (.ok res, q)) (hne : res.Data ≠ []) :
    (∃ first last start end_, res.Data.head? = some first ∧ res.Data.getLast? = some last ∧
      getKeyValue first p.Fields = .ok start ∧ getKeyValue last p.Fields = .ok end_ ∧
      res.PrevToken = EncodePageToken lib start ∧ res.NextToken = EncodePageToken lib end_) ∧
    (res.Data.length = 1 → res.PrevToken = res.NextToken) := by
  rcases Paginate_ok_tokens lib env p q prevToken nextToken res hret with ⟨h, -, -⟩ | ⟨hprev, hnext⟩
  · exact absurd h hne
  · rcases hD : res.Data with _ | ⟨first, rest⟩
    · exact absurd hD hne
    · rw [hD] at hprev hnext
      refine ⟨⟨first, (first :: rest).getLast (by simp), _, _, rfl,
        List.getLast?_eq_getLast _ (by simp), rfl, rfl, ?_, ?_⟩, fun hlen => ?_⟩
      · simpa using hprev
      · rw [hnext, List.getLastD_eq_getLast?, List.getLast?_eq_getLast _ (by simp)]
        rfl
      · have hrest : rest = [] := by
          simpa using hlen
        subst hrest
        rw [hprev, hnext]
        rfl

/-- Witness of `tokens_minted_from_boundary_rows`: the first page of two rows. -/
theorem tokens_minted_from_boundary_rows_witness :
    (demoPaginator.Paginate goStd demoEnv [] [] =
        (.ok ⟨[seqRow 1 2, seqRow 2 3], 3, "eyJzZXEiOjF9".toList, "eyJzZXEiOjJ9".toList⟩,
          (demoPaginator.Paginate goStd demoEnv [] []).2) ∧
      [seqRow 1 2, seqRow 2 3] ≠ []) ∧
    ∃ first last start end_, [seqRow 1 2, seqRow 2 3].head? = some first ∧
      [seqRow 1 2, seqRow 2 3].getLast? = some last ∧
      getKeyValue first demoPaginator.Fields = .ok start ∧
      getKeyValue last demoPaginator.Fields = .ok end_ ∧
      "eyJzZXEiOjF9".toList = EncodePageToken goStd start ∧
      "eyJzZXEiOjJ9".toList = EncodePageToken goStd end_ :=
  ⟨⟨by decide, by decide⟩,
    (tokens_minted_from_boundary_rows goStd demoEnv demoPaginator
      (demoPaginator.Paginate goStd demoEnv [] []).2 [] []
      ⟨[seqRow 1 2, seqRow 2 3], 3, "eyJzZXEiOjF9".toList, "eyJzZXEiOjJ9".toList⟩
      (by decide) (by decide)).1⟩

/-- C17: the extractor and the comparison builder do not agree on the names of
a qualified two-field spec.  For `t.created_at,t.id` and a row with
`created_at = 5` and `id = 8`, `getKeyValue` mints a mapping with the one key
`created_at`; from that mapping `getCompareValue` looks up the key
`created_at,t`, which is missing, and builds `<nil>`, not `5, 8`; the cursor
scan that follows the first page is handed `(t.created_at,t.id) > (<nil>)`. -/
theorem extractor_and_builder_disagree_on_qualified_spec :
    getKeyValue (eventRow 5 8) "t.created_at,t.id".toList = .ok [("created_at".toList, .num 5)] ∧
    getCompareValue "t.created_at,t.id".toList [("created_at".toList, .num 5)] =
      .ok "<nil>".toList ∧
    ((paginatorOn "t.created_at,t.id".toList 0 2 false).Paginate goStd
        (stubEnv 3 [eventRow 4 7, eventRow 5 8]) [] []).1 =
      .ok ⟨[eventRow 4 7, eventRow 5 8], 3, "eyJjcmVhdGVkX2F0Ijo0fQ==".toList,
        "eyJjcmVhdGVkX2F0Ijo1fQ==".toList⟩ ∧
    ((paginatorOn "t.created_at,t.id".toList 0 2 false).Paginate goStd
        (stubEnv 3 [eventRow 6 9]) [] "eyJjcmVhdGVkX2F0Ijo1fQ==".toList).2.DB =
      (((DB.ctx "t".toList [] []).Where "(t.created_at,t.id) > (<nil>)".toList).Order
        "t.created_at ASC,t.id ASC".toList).Limit 2 := by
  refine ⟨by decide, by decide, by decide, by decide⟩

/-- C18: `getCompareValue` indexes the split field list out of range exactly
when the cursor mapping does not have exactly one key and the `Fields` string
holds no comma; for every other string and mapping it returns a string.  The
token `e30=` decodes to the empty object, and with it the cursor scan over the
single sort field `seq` reaches the out-of-range index. -/
theorem getCompareValue_out_of_range_iff (s : Str) (mapp : Cursor) :
    (getCompareValue s mapp = .error .indexOutOfRange ↔ (mapp.length ≠ 1 ∧ ',' ∉ s)) ∧
    ((mapp.length ≠ 1 ∧ ',' ∉ s) ∨ ∃ text, getCompareValue s mapp = .ok text) ∧
    DecodePageToken goStd "e30=".toList = .ok [] ∧
    demoPaginator.Paginate goStd demoEnv [] "e30=".toList =
      (.error .indexOutOfRange, demoPaginator) := by
  have hsplit := split_length_ge_two s ','
  have key : (mapp.length = 1 ∧ ∃ text, getCompareValue s mapp = .ok text) ∨
      (mapp.length ≠ 1 ∧ ',' ∈ s ∧ ∃ text, getCompareValue s mapp = .ok text) ∨
      (mapp.length ≠ 1 ∧ ',' ∉ s ∧ getCompareValue s mapp = .error .indexOutOfRange) := by
    unfold getCompareValue
    by_cases h1 : mapp.length = 1
    · exact Or.inl ⟨h1, by simp [h1]⟩
    · rw [if_neg h1]
      rcases hs : split s ',' with _ | ⟨f0, _ | ⟨f1, rest⟩⟩
      · rw [hs] at hsplit
        exact Or.inr (Or.inr ⟨h1, fun hm => by simpa using hsplit.mpr hm, rfl⟩)
      · rw [hs] at hsplit
        exact Or.inr (Or.inr ⟨h1, fun hm => by simpa using hsplit.mpr hm, rfl⟩)
      · rw [hs] at hsplit
        exact Or.inr (Or.inl ⟨h1, hsplit.mp (by simp), _, rfl⟩)
  refine ⟨⟨fun h => ?_, fun h => ?_⟩, ?_, by decide, by decide⟩
  · rcases key with ⟨-, text, ht⟩ | ⟨-, -, text, ht⟩ | ⟨h1, h2, -⟩
    · rw [ht] at h
      cases h
    · rw [ht] at h
      cases h
    · exact ⟨h1, h2⟩
  · rcases key with ⟨h1, -⟩ | ⟨-, h2, -⟩ | ⟨-, -, h3⟩
    · exact absurd h1 h.1
    · exact absurd h2 h.2
    · exact h3
  · rcases key with ⟨-, ht⟩ | ⟨-, -, ht⟩ | ⟨h1, h2, -⟩
    · exact Or.inr ht
    · exact Or.inr ht
    · exact Or.inl ⟨h1, h2⟩

/-- C19: a negative offset.  When the count is positive, `Start < 0` and both
tokens are empty, the switch takes the cursor case; the base64 library decodes
the empty token to no bytes, `json.Unmarshal` rejects them, and `Paginate`
returns that error and no result.  The paginator is left as it was: neither
the plain scan nor the deferred join was prepared. -/
theorem negative_start_takes_cursor_case (lib : Lib) (env : Env) (p : Paginator)
    (count : Int) (code : Nat)
    (hc : p.optimizedCount env = .ok count) (hpos : 0 < count) (hneg : p.Start < 0)
    (hb : lib.decodeString [] = .ok []) (hj : lib.jsonUnmarshal [] = .error code) :
    p.switchCase lib (getOrderFields p.Fields (orderMap p.Sequence)) [] [] =
      p.cursorCase lib (getOrderFields p.Fields (orderMap p.Sequence)) [] [] ∧
    DecodePageToken lib (cursorToken [] []) = .error (.unmarshal code) ∧
    p.Paginate lib env [] [] = (.error (.unmarshal code), p) ∧
    ¬ isPlainScan p (p.Paginate lib env [] []).2.DB ∧
    ¬ isDeepOffsetScan p (p.Paginate lib env [] []).2.DB := by
  have h0 : count ≠ 0 := by omega
  have hsw : p.switchCase lib (getOrderFields p.Fields (orderMap p.Sequence)) [] [] =
      p.cursorCase lib (getOrderFields p.Fields (orderMap p.Sequence)) [] [] := by
    unfold Paginator.switchCase
    have h1 : ¬ (p.Start = 0 ∧ ([] : Str) = [] ∧ ([] : Str) = []) := by
      rintro ⟨h, -, -⟩
      omega
    have h2 : ¬ (p.Start > 0 ∧ ([] : Str) = [] ∧ ([] : Str) = []) := by
      rintro ⟨h, -, -⟩
      omega
    rw [if_neg h1, if_neg h2]
  have hd : DecodePageToken lib [] = .error (.unmarshal code) := by
    simp [DecodePageToken, hb, hj]
  have hP : p.Paginate lib env [] [] = (.error (.unmarshal code), p) := by
    rw [Paginate_of_count hc h0, hsw, cursorCase_next, hd]
  refine ⟨hsw, by simpa [cursorToken] using hd, hP, ?_, ?_⟩
  · rw [hP]
    exact DB.ne_limit_order _ _ _
  · rw [hP]
    exact fun h => getDelayedAssociationDB_ne p _ _ h rfl

/-- Witness of `negative_start_takes_cursor_case`: `Start = -1` over three rows. -/
theorem negative_start_takes_cursor_case_witness :
    ((paginatorOn "seq".toList (-1) 2 false).optimizedCount demoEnv = .ok 3 ∧ (0 : Int) < 3 ∧
      (paginatorOn "seq".toList (-1) 2 false).Start < 0 ∧
      goStd.decodeString [] = .ok [] ∧ goStd.jsonUnmarshal [] = .error 2) ∧
    (paginatorOn "seq".toList (-1) 2 false).Paginate goStd demoEnv [] [] =
      (.error (.unmarshal 2), paginatorOn "seq".toList (-1) 2 false) :=
  ⟨⟨by decide, by decide, by decide, by decide, by decide⟩,
    (negative_start_takes_cursor_case goStd demoEnv (paginatorOn "seq".toList (-1) 2 false) 3 2
      (by decide) (by decide) (by decide) (by decide) (by decide)).2.2.1⟩

end Page
